import Mathlib

/-!
# Aurum ledger engine

A shallow embedding of `src/cmd/aggregator/aurum_core.go`: the block and
transaction records, the Merkle commitment, the block digest, signing, the
append pipeline, the two queries and the length-prefixed ledger file.

Conventions.
* A Go `[]byte` is a list of naturals, each below 256; a Go `string` is a
  `String`, turned into bytes by `stringBytes` (UTF-8): the strings of the
  model are the Go strings that are valid UTF-8.
* `int64` values are integers, taken in the range of `int64`; the one
  arithmetic operation of the engine (`last.Index + 1`) is wrapped by
  `wrapInt64`, and the `int32` length prefix of a record by `wrapInt32`.
* The libraries the engine calls (`crypto/sha256`, `crypto/ed25519`,
  `encoding/json`) are the fields of `Lib`; every general theorem holds for
  all of them. `goLib` is one concrete library, used to run the engine on
  concrete inputs.
* The engine reads the clock and the disk; what they answer is an input of
  the call (`Call`).
* A Go panic is the `Except.error` of a result.
-/

namespace Aurum

/-! ## Data model -/

/-- A Go byte slice, or the contents of a file: every element is below 256. -/
abbrev Bytes := List Nat

/-- A Go `error` value, identified by its message. -/
abbrev GoError := String

/-- The dynamic values a payload entry holds (`interface{}`): the scalar kinds
the aggregator stores. `int n` is an `int` or `int64`; `float64 n` is the
`float64` whose value is the integer `n`, a `float64` with a fraction not being
among the values of the model; `unsupported` stands for a value `json.Marshal`
rejects (a channel, a function, a NaN). -/
inductive GoValue
  | null
  | bool (b : Bool)
  | int (n : Int)
  | float64 (n : Int)
  | str (s : String)
  | unsupported
  deriving DecidableEq, Repr

/-- A `map[string]interface{}`: `none` is the nil map, `some kvs` a map given
by its entries in ascending key order. -/
abbrev Payload := Option (List (String × GoValue))

/-- The `Transaction` struct. -/
structure Transaction where
  TxHash : String
  Timestamp : Int
  Data : Payload
  deriving DecidableEq, Repr

/-- The `Block` struct. -/
structure Block where
  Index : Int
  Timestamp : Int
  PreviousHash : String
  MerkleRoot : String
  Transactions : List Transaction
  Hash : String
  Signature : String
  SignerPubkey : String
  Locked : Bool
  deriving DecidableEq, Repr

/-- The zero value `Block{}`. -/
def Block.zero : Block :=
  { Index := 0, Timestamp := 0, PreviousHash := "", MerkleRoot := "", Transactions := [],
    Hash := "", Signature := "", SignerPubkey := "", Locked := false }

/-- The `AurumCore` struct, without its lock. -/
structure AurumCore where
  blocks : List Block
  filepath : String
  privateKey : Bytes
  publicKey : Bytes
  deriving DecidableEq, Repr

/-- The file at `core.filepath`: `none` when it does not exist. -/
abbrev Disk := Option Bytes

/-- The library functions the engine calls. -/
structure Lib where
  /-- The 32 bytes of `sha256.Sum256`. -/
  sha256 : Bytes → Bytes
  /-- The signature `ed25519.Sign(privateKey, message)`. -/
  edSign : Bytes → Bytes → Bytes
  /-- The key `privKey.Public()`. -/
  edPublic : Bytes → Bytes
  /-- The bytes `json.Marshal(data)` of a payload, `none` when it returns an error. -/
  jsonMarshalData : Payload → Option Bytes
  /-- The bytes `json.Marshal(b)` of a block, `none` when it returns an error. -/
  jsonMarshalBlock : Block → Option Bytes
  /-- The block `b` after `var b Block; json.Unmarshal(data, &b)`, the error dropped. -/
  jsonUnmarshalBlock : Bytes → Block

deriving instance DecidableEq for Except

/-! ## Primitive conversions -/

/-- The conversion `int64(x)` of two's complement arithmetic. -/
def wrapInt64 (x : Int) : Int := (x + 2 ^ 63) % 2 ^ 64 - 2 ^ 63

/-- The conversion `int32(x)`. -/
def wrapInt32 (x : Int) : Int := (x + 2 ^ 31) % 2 ^ 32 - 2 ^ 31

/-- The UTF-8 bytes of one code point. -/
def utf8Encode (c : Nat) : Bytes :=
  if c < 0x80 then [c]
  else if c < 0x800 then [0xC0 + c / 64, 0x80 + c % 64]
  else if c < 0x10000 then [0xE0 + c / 4096, 0x80 + c / 64 % 64, 0x80 + c % 64]
  else [0xF0 + c / 262144, 0x80 + c / 4096 % 64, 0x80 + c / 64 % 64, 0x80 + c % 64]

/-- The conversion `[]byte(s)`. -/
def stringBytes (s : String) : Bytes := s.data.flatMap fun c => utf8Encode c.toNat

/-- One lowercase hexadecimal digit. -/
def hexDigit (n : Nat) : Char := if n < 10 then Char.ofNat (48 + n) else Char.ofNat (87 + n)

/-- The string `hex.EncodeToString(bs)`. -/
def hexEncode (bs : Bytes) : String :=
  String.mk (bs.flatMap fun b => [hexDigit (b / 16 % 16), hexDigit (b % 16)])

/-- The hexadecimal SHA-256 digest of a string: `hex.EncodeToString(sha256.Sum256([]byte(s)))`. -/
def sha256Hex (L : Lib) (s : String) : String := hexEncode (L.sha256 (stringBytes s))

/-- The four bytes `binary.Write(buf, binary.LittleEndian, v)` emits for an `int32`. -/
def putInt32LE (v : Int) : Bytes :=
  let u := (v % 2 ^ 32).toNat
  [u % 256, u / 256 % 256, u / 65536 % 256, u / 16777216 % 256]

/-- The `int32` that `binary.Read(f, binary.LittleEndian, &length)` decodes from four bytes. -/
def getInt32LE (bs : Bytes) : Int :=
  wrapInt32 (bs.getD 0 0 + 256 * bs.getD 1 0 + 65536 * bs.getD 2 0 + 16777216 * bs.getD 3 0 : Nat)

/-! ## Crypto logic -/

/-- The inner loop of `ComputeMerkleRoot`: `for i := 0; i < len(hashes); i += 2`, with
`nextLevel` accumulated in `acc`. The loop runs at most `fuel` times. -/
def nextLevelLoop (L : Lib) (hashes : List String) : Nat → Nat → List String → List String
  | 0, _, acc => acc
  | fuel + 1, i, acc =>
    if i < hashes.length then
      if i + 1 < hashes.length then
        nextLevelLoop L hashes fuel (i + 2)
          (acc ++ [sha256Hex L (hashes.getD i "" ++ hashes.getD (i + 1) "")])
      else
        nextLevelLoop L hashes fuel (i + 2) (acc ++ [hashes.getD i ""])
    else acc

/-- One pass of the inner loop over a level. -/
def nextLevel (L : Lib) (hashes : List String) : List String :=
  nextLevelLoop L hashes hashes.length 0 []

/-- The outer loop of `ComputeMerkleRoot`: `for len(hashes) > 1`, run at most `fuel` times. -/
def merkleLoop (L : Lib) : Nat → List String → List String
  | 0, hashes => hashes
  | fuel + 1, hashes =>
    if hashes.length > 1 then merkleLoop L fuel (nextLevel L hashes) else hashes

/-- The method `ComputeMerkleRoot`. -/
def ComputeMerkleRoot (L : Lib) (txs : List Transaction) : String :=
  if txs.length = 0 then sha256Hex L "empty"
  else (merkleLoop L txs.length (txs.map fun tx => tx.TxHash)).getD 0 ""

/-- The message `SignBlock` signs: `fmt.Sprintf("AURUM|v1|%d|%s|%s", ...)`. -/
def signMessage (b : Block) : String :=
  "AURUM|v1|" ++ toString b.Index ++ "|" ++ b.PreviousHash ++ "|" ++ b.MerkleRoot

/-- The method `SignBlock`: the block after the call. -/
def SignBlock (L : Lib) (core : AurumCore) (b : Block) : Block :=
  { b with
    Signature := hexEncode (L.edSign core.privateKey (stringBytes (signMessage b)))
    SignerPubkey := hexEncode core.publicKey }

/-- The string `HashBlock` hashes: `fmt.Sprintf("%d%d%s%s", ...)`. -/
def hashInput (b : Block) : String :=
  toString b.Index ++ toString b.Timestamp ++ b.PreviousHash ++ b.MerkleRoot

/-- The method `HashBlock`. -/
def HashBlock (L : Lib) (b : Block) : String := sha256Hex L (hashInput b)

/-! ## Binary I/O -/

/-- What the operating system does with one `writeToDisk`. -/
inductive DiskOutcome
  /-- The call `os.OpenFile` returns `err`. -/
  | openFails (err : GoError)
  /-- The call `f.Write` stores only the first `n` bytes of the buffer and returns `err`. -/
  | shortWrite (n : Nat) (err : GoError)
  /-- The call `f.Write` stores the whole buffer. -/
  | complete
  deriving DecidableEq, Repr

/-- The buffer `writeToDisk` builds: `[Size(4)][JSONBytes(N)]`. The error of
`json.Marshal` is dropped, which leaves `data` nil. -/
def recordBytes (L : Lib) (b : Block) : Bytes :=
  let data := (L.jsonMarshalBlock b).getD []
  putInt32LE (wrapInt32 data.length) ++ data

/-- The method `writeToDisk`: the error it returns (`none` for nil) and the file afterwards. -/
def writeToDisk (L : Lib) (disk : Disk) (b : Block) : DiskOutcome → Option GoError × Disk
  | .openFails err => (some err, disk)
  | .shortWrite n err => (some err, some (disk.getD [] ++ (recordBytes L b).take n))
  | .complete => (none, some (disk.getD [] ++ recordBytes L b))

/-- The most bytes one `f.Read` returns: `os.File.Read` is a single read, which
`internal/poll` cuts to `maxRW`, 1 GiB. -/
def maxRW : Nat := 1073741824

/-- The loop of `loadFromDisk` over the unread bytes `rest` of the file, run at most
`fuel` times. `Except.error` is the panic of `make([]byte, length)` on a negative length. -/
def loadLoop (L : Lib) : Nat → Bytes → List Block → Except String (List Block)
  | 0, _, blocks => .ok blocks
  | fuel + 1, rest, blocks =>
    -- binary.Read: io.ReadFull of four bytes
    if rest.length < 4 then .ok blocks
    else
      let length := getInt32LE (rest.take 4)
      let rest1 := rest.drop 4
      if length < 0 then .error "makeslice: len out of range"
      else
        -- f.Read(data): (0, io.EOF) at the end of the file, unless len(data) = 0;
        -- otherwise one read of at most maxRW bytes, and no error when it is short
        if length.toNat ≠ 0 ∧ rest1.length = 0 then .ok blocks
        else
          let n := min (min length.toNat maxRW) rest1.length
          let data := rest1.take n ++ List.replicate (length.toNat - n) 0
          loadLoop L fuel (rest1.drop n) (blocks ++ [L.jsonUnmarshalBlock data])

/-- The method `loadFromDisk`: the engine afterwards, or the panic. -/
def loadFromDisk (L : Lib) (core : AurumCore) : Disk → Except String AurumCore
  | none => .ok core
  | some file =>
    if file.length = 0 then .ok core
    else
      match loadLoop L (file.length + 1) file core.blocks with
      | .ok blocks => .ok { core with blocks := blocks }
      | .error e => .error e

/-- The constructor `NewAurumCore`. -/
def NewAurumCore (L : Lib) (filepath : String) (privKey : Bytes) (disk : Disk) :
    Except String AurumCore :=
  loadFromDisk L
    { blocks := [], filepath := filepath, privateKey := privKey, publicKey := L.edPublic privKey }
    disk

/-! ## Storage operations -/

/-- The genesis value of `prevHash`. -/
def genesisHash : String := "0000000000000000000000000000000000000000000000000000000000000000"

/-- The element `core.blocks[len(core.blocks)-1]` of a non-empty slice. -/
def lastBlock (core : AurumCore) : Block :=
  core.blocks.getD (core.blocks.length - 1) Block.zero

/-- What one `AppendBlock` receives: the payload, the two readings of
`time.Now().Unix()` and the behaviour of the disk. -/
structure Call where
  data : Payload
  txNow : Int
  blockNow : Int
  disk : DiskOutcome
  deriving DecidableEq, Repr

/-- The block `AppendBlock` has built when it reaches `writeToDisk`. -/
def buildBlock (L : Lib) (core : AurumCore) (c : Call) : Block :=
  let index : Int := if core.blocks.length > 0 then wrapInt64 ((lastBlock core).Index + 1) else 0
  let prevHash : String := if core.blocks.length > 0 then (lastBlock core).Hash else genesisHash
  let txBytes := (L.jsonMarshalData c.data).getD []
  let tx : Transaction :=
    { TxHash := hexEncode (L.sha256 txBytes), Timestamp := c.txNow, Data := c.data }
  let block : Block :=
    { Index := index, Timestamp := c.blockNow, PreviousHash := prevHash, MerkleRoot := "",
      Transactions := [tx], Hash := "", Signature := "", SignerPubkey := "", Locked := true }
  let block := { block with MerkleRoot := ComputeMerkleRoot L block.Transactions }
  let block := { block with Hash := HashBlock L block }
  SignBlock L core block

/-- The result of one `AppendBlock`: what it returns, the engine and the file afterwards. -/
structure Appended where
  result : Except GoError Block
  core : AurumCore
  disk : Disk

/-- The method `AppendBlock`. -/
def AppendBlock (L : Lib) (core : AurumCore) (disk : Disk) (c : Call) : Appended :=
  let block := buildBlock L core c
  match writeToDisk L disk block c.disk with
  | (some err, disk1) => { result := .error err, core := core, disk := disk1 }
  | (none, disk1) =>
    { result := .ok block, core := { core with blocks := core.blocks ++ [block] }, disk := disk1 }

/-- The method `GetLatest`. -/
def GetLatest (core : AurumCore) : Block :=
  if core.blocks.length = 0 then Block.zero else lastBlock core

/-- The map `GetChainStatus` returns. -/
structure ChainStatus where
  height : Nat
  latest_hash : String
  integrity : String
  deriving DecidableEq, Repr

/-- The method `GetChainStatus`: `core.blocks[len(core.blocks)-1]` panics on an empty
slice, the index being -1. -/
def GetChainStatus (core : AurumCore) : Except String ChainStatus :=
  let i : Int := (core.blocks.length : Int) - 1
  if i < 0 then .error "index out of range [-1]"
  else
    .ok { height := core.blocks.length, latest_hash := (core.blocks.getD i.toNat Block.zero).Hash,
          integrity := "secure" }

/-! ## A concrete library

The engine is run on concrete inputs with `goLib`. Its JSON half writes the
text `json.Marshal` writes for a block (compact, the fields in declaration
order, the keys of a map sorted, strings escaped as Go escapes them) and reads
that text back as `json.Unmarshal` does: a number of a payload comes back as
the nearest `float64`. Any other text is read as malformed, which leaves the
zero block, as `json.Unmarshal` leaves it on a syntax error; the engine writes
no other text.

The JSON half is `encoding/json` on the blocks whose payload numbers are an
`int`, or a `float64` that holds an integer of magnitude at most `2 ^ 53`: for
these `json.Marshal` writes the decimal digits of the integer. A larger
`float64` is written by `json.Marshal` with the fewest digits that read back,
and from `1e21` on with an exponent, which `jsonValue` does not follow; the
theorems on this half take no such value (`NativeValue`).

The hash and the signature are stand-ins of the right length: no theorem
depends on them.
-/

/-- Four hexadecimal digits, as bytes. -/
def hex4 (n : Nat) : Bytes :=
  [n / 4096 % 16, n / 256 % 16, n / 16 % 16, n % 16].map fun d => (hexDigit d).toNat

/-- One code point inside a JSON string, escaped as `encoding/json` escapes it. -/
def jsonEscape (c : Nat) : Bytes :=
  if c = 34 then [92, 34]
  else if c = 92 then [92, 92]
  else if c = 10 then [92, 110]
  else if c = 13 then [92, 114]
  else if c = 9 then [92, 116]
  else if c = 8 then [92, 98]
  else if c = 12 then [92, 102]
  else if c < 32 ∨ c = 60 ∨ c = 62 ∨ c = 38 ∨ c = 0x2028 ∨ c = 0x2029 then [92, 117] ++ hex4 c
  else utf8Encode c

/-- A JSON string literal. -/
def jsonString (s : String) : Bytes :=
  [34] ++ s.data.flatMap (fun c => jsonEscape c.toNat) ++ [34]

/-- A JSON integer. -/
def jsonInt (n : Int) : Bytes := stringBytes (toString n)

/-- The JSON text of one payload value, `none` for a value `json.Marshal` rejects. A `float64`
is written with the digits of its integer, as `json.Marshal` writes it up to `2 ^ 53`. -/
def jsonValue : GoValue → Option Bytes
  | .null => some (stringBytes "null")
  | .bool true => some (stringBytes "true")
  | .bool false => some (stringBytes "false")
  | .int n => some (jsonInt n)
  | .float64 n => some (jsonInt n)
  | .str s => some (jsonString s)
  | .unsupported => none

/-- Insertion of one entry into a list sorted by key. -/
def insertEntry (e : String × GoValue) : List (String × GoValue) → List (String × GoValue)
  | [] => [e]
  | x :: xs => if e.1 < x.1 then e :: x :: xs else x :: insertEntry e xs

/-- The entries of a map in the order `json.Marshal` writes them. -/
def sortEntries (kvs : List (String × GoValue)) : List (String × GoValue) :=
  kvs.foldr insertEntry []

/-- The texts of a list, separated by commas. -/
def joinComma : List Bytes → Bytes
  | [] => []
  | [x] => x
  | x :: y :: xs => x ++ [44] ++ joinComma (y :: xs)

/-- The texts `"key":value` of the entries of a map. -/
def jsonEntries : List (String × GoValue) → Option (List Bytes)
  | [] => some []
  | kv :: kvs =>
    match jsonValue kv.2, jsonEntries kvs with
    | some v, some rest => some ((jsonString kv.1 ++ [58] ++ v) :: rest)
    | _, _ => none

/-- The text `json.Marshal(data)` of a payload. -/
def marshalData : Payload → Option Bytes
  | none => some (stringBytes "null")
  | some kvs => (jsonEntries (sortEntries kvs)).map fun es => [123] ++ joinComma es ++ [125]

/-- The text of one member `"name":` of an object. -/
def jsonKey (name : String) : Bytes := jsonString name ++ [58]

/-- The text `json.Marshal(tx)` of a transaction. -/
def marshalTx (tx : Transaction) : Option Bytes :=
  (marshalData tx.Data).map fun d =>
    [123] ++ jsonKey "tx_hash" ++ jsonString tx.TxHash ++ [44] ++
      jsonKey "timestamp" ++ jsonInt tx.Timestamp ++ [44] ++
      jsonKey "data" ++ d ++ [125]

/-- The texts of the transactions of a block. -/
def marshalTxs : List Transaction → Option (List Bytes)
  | [] => some []
  | tx :: txs =>
    match marshalTx tx, marshalTxs txs with
    | some t, some rest => some (t :: rest)
    | _, _ => none

/-- The text `json.Marshal(b)` of a block. A block without transactions holds the nil
slice, written `null`. -/
def marshalBlock (b : Block) : Option Bytes :=
  (marshalTxs b.Transactions).map fun ts =>
    [123] ++ jsonKey "index" ++ jsonInt b.Index ++ [44] ++
      jsonKey "timestamp" ++ jsonInt b.Timestamp ++ [44] ++
      jsonKey "previous_hash" ++ jsonString b.PreviousHash ++ [44] ++
      jsonKey "merkle_root" ++ jsonString b.MerkleRoot ++ [44] ++
      jsonKey "transactions" ++
        (if ts.length = 0 then stringBytes "null" else [91] ++ joinComma ts ++ [93]) ++ [44] ++
      jsonKey "hash" ++ jsonString b.Hash ++ [44] ++
      jsonKey "signature" ++ jsonString b.Signature ++ [44] ++
      jsonKey "signer_pubkey" ++ jsonString b.SignerPubkey ++ [44] ++
      jsonKey "locked" ++ stringBytes (if b.Locked then "true" else "false") ++ [125]

/-- The input after the literal `lit`, when it starts with it. -/
def expect (lit : Bytes) (input : Bytes) : Option Bytes :=
  if lit.isPrefixOf input then some (input.drop lit.length) else none

/-- The value of a run of decimal digits, and what follows it. -/
def readDigits : Bytes → Nat → Nat × Bytes
  | [], acc => (acc, [])
  | c :: cs, acc => if 48 ≤ c ∧ c ≤ 57 then readDigits cs (acc * 10 + (c - 48)) else (acc, c :: cs)

/-- A JSON integer: an optional minus sign and digits without a leading zero. -/
def readInt (input : Bytes) : Option (Int × Bytes) :=
  let neg := input.head? = some 45
  let body := if neg then input.drop 1 else input
  match body with
  | [] => none
  | c :: cs =>
    if c = 48 then
      (match cs.head? with
       | some d => if 48 ≤ d ∧ d ≤ 57 then none else some (0, cs)
       | none => some (0, cs))
    else if 49 ≤ c ∧ c ≤ 57 then
      let r := readDigits body 0
      some (if neg then -(r.1 : Int) else (r.1 : Int), r.2)
    else none

/-- The value of one hexadecimal digit. -/
def hexValue (c : Nat) : Option Nat :=
  if 48 ≤ c ∧ c ≤ 57 then some (c - 48)
  else if 97 ≤ c ∧ c ≤ 102 then some (c - 87)
  else if 65 ≤ c ∧ c ≤ 70 then some (c - 55)
  else none

/-- The code points of a UTF-8 text; a byte that starts no sequence is read as U+FFFD. -/
def utf8Decode : Nat → Bytes → List Nat
  | 0, _ => []
  | _ + 1, [] => []
  | fuel + 1, b :: bs =>
    if b < 0x80 then b :: utf8Decode fuel bs
    else if 0xC0 ≤ b ∧ b < 0xE0 ∧ 1 ≤ bs.length then
      ((b - 0xC0) * 64 + (bs.getD 0 0 - 0x80)) :: utf8Decode fuel (bs.drop 1)
    else if 0xE0 ≤ b ∧ b < 0xF0 ∧ 2 ≤ bs.length then
      ((b - 0xE0) * 4096 + (bs.getD 0 0 - 0x80) * 64 + (bs.getD 1 0 - 0x80))
        :: utf8Decode fuel (bs.drop 2)
    else if 0xF0 ≤ b ∧ b < 0xF8 ∧ 3 ≤ bs.length then
      ((b - 0xF0) * 262144 + (bs.getD 0 0 - 0x80) * 4096 + (bs.getD 1 0 - 0x80) * 64
          + (bs.getD 2 0 - 0x80)) :: utf8Decode fuel (bs.drop 3)
    else 0xFFFD :: utf8Decode fuel bs

/-- The bytes of a JSON string up to its closing quote, escapes resolved, and what follows
the quote. -/
def readStringBody : Nat → Bytes → Bytes → Option (Bytes × Bytes)
  | 0, _, _ => none
  | _ + 1, [], _ => none
  | fuel + 1, c :: cs, acc =>
    if c = 34 then some (acc, cs)
    else if c < 32 then none
    else if c = 92 then
      match cs with
      | [] => none
      | e :: es =>
        if e = 34 ∨ e = 92 ∨ e = 47 then readStringBody fuel es (acc ++ [e])
        else if e = 98 then readStringBody fuel es (acc ++ [8])
        else if e = 102 then readStringBody fuel es (acc ++ [12])
        else if e = 110 then readStringBody fuel es (acc ++ [10])
        else if e = 114 then readStringBody fuel es (acc ++ [13])
        else if e = 116 then readStringBody fuel es (acc ++ [9])
        else if e = 117 then
          match hexValue (es.getD 0 0), hexValue (es.getD 1 0), hexValue (es.getD 2 0),
              hexValue (es.getD 3 0) with
          | some a, some b, some c, some d =>
            readStringBody fuel (es.drop 4) (acc ++ utf8Encode (a * 4096 + b * 256 + c * 16 + d))
          | _, _, _, _ => none
        else none
    else readStringBody fuel cs (acc ++ [c])

/-- A JSON string literal, and what follows it. -/
def readString (input : Bytes) : Option (String × Bytes) :=
  match input with
  | c :: cs =>
    if c = 34 then
      (readStringBody cs.length cs []).map fun r =>
        (String.mk ((utf8Decode r.1.length r.1).map Char.ofNat), r.2)
    else none
  | [] => none

/-- The integer that the `float64` nearest to the natural number `n` holds, a tie going to
the even mantissa: `n` itself up to `2 ^ 53`. -/
def nearestFloat64 (n : Nat) : Nat :=
  if n ≤ 9007199254740992 then n
  else
    let e := Nat.log2 n - 52
    let q := n / 2 ^ e
    let r := n % 2 ^ e
    let q1 := if 2 ^ (e - 1) < r ∨ (r = 2 ^ (e - 1) ∧ q % 2 = 1) then q + 1 else q
    q1 * 2 ^ e

/-- The value `json.Unmarshal` stores in an `interface{}` for an integer number: the nearest
`float64`, or nil when that is out of the range of `float64`. -/
def float64Value (n : Int) : GoValue :=
  if nearestFloat64 n.natAbs < 2 ^ 1024 then
    .float64 (if n < 0 then -(nearestFloat64 n.natAbs : Int) else (nearestFloat64 n.natAbs : Int))
  else .null

/-- A payload value: a number is read as a `float64`. -/
def readValue (input : Bytes) : Option (GoValue × Bytes) :=
  match expect (stringBytes "null") input with
  | some rest => some (.null, rest)
  | none =>
  match expect (stringBytes "true") input with
  | some rest => some (.bool true, rest)
  | none =>
  match expect (stringBytes "false") input with
  | some rest => some (.bool false, rest)
  | none =>
  match readString input with
  | some (s, rest) => some (.str s, rest)
  | none => (readInt input).map fun r => (float64Value r.1, r.2)

/-- The entries of a map after its opening brace, up to the closing one. -/
def readEntries : Nat → Bytes → List (String × GoValue) → Option (List (String × GoValue) × Bytes)
  | 0, _, _ => none
  | fuel + 1, input, acc =>
    match readString input with
    | none => none
    | some (k, r1) =>
      match expect [58] r1 with
      | none => none
      | some r2 =>
        match readValue r2 with
        | none => none
        | some (v, r3) =>
          match r3 with
          | c :: r4 =>
            if c = 125 then some (acc ++ [(k, v)], r4)
            else if c = 44 then readEntries fuel r4 (acc ++ [(k, v)])
            else none
          | [] => none

/-- A payload: `null`, or an object. -/
def readData (input : Bytes) : Option (Payload × Bytes) :=
  match expect (stringBytes "null") input with
  | some rest => some (none, rest)
  | none =>
    match expect [123, 125] input with
    | some rest => some (some [], rest)
    | none =>
      match expect [123] input with
      | some rest => (readEntries rest.length rest []).map fun r => (some r.1, r.2)
      | none => none

/-- One member of an object: the opening brace or a comma, the key, and the value read
by `read`. -/
def readMember {α : Type} (first : Bool) (name : String) (read : Bytes → Option (α × Bytes))
    (input : Bytes) : Option (α × Bytes) :=
  match expect ((if first then [123] else [44]) ++ jsonKey name) input with
  | none => none
  | some r => read r

/-- One transaction. -/
def readTx (input : Bytes) : Option (Transaction × Bytes) :=
  (readMember true "tx_hash" readString input).bind fun h =>
  (readMember false "timestamp" readInt h.2).bind fun t =>
  (readMember false "data" readData t.2).bind fun d =>
  (expect [125] d.2).map fun r =>
    ({ TxHash := h.1, Timestamp := t.1, Data := d.1 }, r)

/-- The transactions of an array after its opening bracket, up to the closing one. -/
def readTxs : Nat → Bytes → List Transaction → Option (List Transaction × Bytes)
  | 0, _, _ => none
  | fuel + 1, input, acc =>
    match readTx input with
    | none => none
    | some (tx, r) =>
      match r with
      | c :: r1 =>
        if c = 93 then some (acc ++ [tx], r1)
        else if c = 44 then readTxs fuel r1 (acc ++ [tx])
        else none
      | [] => none

/-- The member `transactions`: `null`, or an array. -/
def readTransactions (input : Bytes) : Option (List Transaction × Bytes) :=
  match expect (stringBytes "null") input with
  | some rest => some ([], rest)
  | none =>
    match expect [91, 93] input with
    | some rest => some ([], rest)
    | none =>
      match expect [91] input with
      | some rest => readTxs rest.length rest []
      | none => none

/-- A boolean. -/
def readBool (input : Bytes) : Option (Bool × Bytes) :=
  match expect (stringBytes "true") input with
  | some rest => some (true, rest)
  | none => (expect (stringBytes "false") input).map fun rest => (false, rest)

/-- One block, and what follows it. -/
def readBlock (input : Bytes) : Option (Block × Bytes) :=
  (readMember true "index" readInt input).bind fun index =>
  (readMember false "timestamp" readInt index.2).bind fun timestamp =>
  (readMember false "previous_hash" readString timestamp.2).bind fun prev =>
  (readMember false "merkle_root" readString prev.2).bind fun root =>
  (readMember false "transactions" readTransactions root.2).bind fun txs =>
  (readMember false "hash" readString txs.2).bind fun hash =>
  (readMember false "signature" readString hash.2).bind fun sig =>
  (readMember false "signer_pubkey" readString sig.2).bind fun pub =>
  (readMember false "locked" readBool pub.2).bind fun locked =>
  (expect [125] locked.2).map fun r =>
    ({ Index := index.1, Timestamp := timestamp.1, PreviousHash := prev.1, MerkleRoot := root.1,
       Transactions := txs.1, Hash := hash.1, Signature := sig.1, SignerPubkey := pub.1,
       Locked := locked.1 }, r)

/-- The block after `var b Block; json.Unmarshal(data, &b)`. -/
def unmarshalBlock (data : Bytes) : Block :=
  match readBlock data with
  | some (b, []) => b
  | _ => Block.zero

/-- A stand-in for `sha256.Sum256`: 32 bytes computed from the input. -/
def demoSha256 (bs : Bytes) : Bytes :=
  (List.range 32).map fun i => bs.foldl (fun a b => (a * 31 + b + i) % 256) (i + 1)

/-- A stand-in for `ed25519.Sign`: 64 bytes computed from the key and the message. -/
def demoSign (key msg : Bytes) : Bytes := demoSha256 (key ++ msg) ++ demoSha256 (msg ++ key)

/-- A stand-in for `privKey.Public()`: the second half of the private key. -/
def demoPublic (key : Bytes) : Bytes := key.drop 32

/-- The concrete library. -/
def goLib : Lib :=
  { sha256 := demoSha256, edSign := demoSign, edPublic := demoPublic,
    jsonMarshalData := marshalData, jsonMarshalBlock := marshalBlock,
    jsonUnmarshalBlock := unmarshalBlock }

/-! ## Runs of the engine -/

/-- The engine and the file after a sequence of `AppendBlock` calls. -/
def runCalls (L : Lib) (core : AurumCore) (disk : Disk) : List Call → AurumCore × Disk
  | [] => (core, disk)
  | c :: cs => runCalls L (AppendBlock L core disk c).core (AppendBlock L core disk c).disk cs

/-- What the calls of a sequence of `AppendBlock` calls return, in order. -/
def runResults (L : Lib) (core : AurumCore) (disk : Disk) : List Call → List (Except GoError Block)
  | [] => []
  | c :: cs =>
    (AppendBlock L core disk c).result ::
      runResults L (AppendBlock L core disk c).core (AppendBlock L core disk c).disk cs

/-- An engine with an empty chain. -/
def emptyCore (filepath : String) (privKey pubKey : Bytes) : AurumCore :=
  { blocks := [], filepath := filepath, privateKey := privKey, publicKey := pubKey }

/-- A block with the four fields `HashBlock` reads, every other field zero. -/
def blockAt (index timestamp : Int) (prev root : String) : Block :=
  { Block.zero with Index := index, Timestamp := timestamp, PreviousHash := prev,
                    MerkleRoot := root }

/-- A private key, a payload and an engine to run the engine on. -/
def demoKey : Bytes := List.replicate 64 7

/-- The payload of the scenario, with the price a `float64`. -/
def demoPayload : Payload := some [("price", .float64 100)]

/-- An engine with an empty chain and `demoKey`. -/
def demoCore : AurumCore := emptyCore "ledger.dat" demoKey (demoPublic demoKey)

/-- A call on `demoPayload` whose write completes. -/
def demoCall : Call := { data := demoPayload, txNow := 1700000000, blockNow := 1700000000,
                         disk := .complete }

/-- A call whose payload holds a value of each native kind. -/
def nativeCall : Call :=
  { data := some [("asset", .str "XAU/USD"), ("price", .float64 2345), ("sealed", .bool true),
                  ("tag", .null)],
    txNow := 1700000120, blockNow := 1700000121, disk := .complete }

/-- A call on `demoPayload` whose file cannot be opened. -/
def refusedCall : Call := { data := demoPayload, txNow := 1700000090, blockNow := 1700000090,
                            disk := .openFails "permission denied" }

/-- A call whose payload holds the price as an `int`. -/
def intCall : Call := { data := some [("price", .int 100)], txNow := 1700000000,
                        blockNow := 1700000000, disk := .complete }

/-- A call whose payload `json.Marshal` rejects, and whose write completes. -/
def badCall : Call := { data := some [("price", .unsupported)], txNow := 1700000000,
                        blockNow := 1700000000, disk := .complete }

/-- A call whose write stops after ten bytes. -/
def tornCall : Call := { data := demoPayload, txNow := 1700000060, blockNow := 1700000060,
                         disk := .shortWrite 10 "no space left on device" }

/-! ## Lemmas on the append pipeline -/

theorem buildBlock_PreviousHash (L : Lib) (core : AurumCore) (c : Call) :
    (buildBlock L core c).PreviousHash =
      if core.blocks.length > 0 then (lastBlock core).Hash else genesisHash := rfl

theorem buildBlock_Index (L : Lib) (core : AurumCore) (c : Call) :
    (buildBlock L core c).Index =
      if core.blocks.length > 0 then wrapInt64 ((lastBlock core).Index + 1) else 0 := rfl

theorem buildBlock_Timestamp (L : Lib) (core : AurumCore) (c : Call) :
    (buildBlock L core c).Timestamp = c.blockNow := rfl

theorem buildBlock_Transactions (L : Lib) (core : AurumCore) (c : Call) :
    (buildBlock L core c).Transactions =
      [{ TxHash := hexEncode (L.sha256 ((L.jsonMarshalData c.data).getD [])),
         Timestamp := c.txNow, Data := c.data }] := rfl

theorem buildBlock_MerkleRoot (L : Lib) (core : AurumCore) (c : Call) :
    (buildBlock L core c).MerkleRoot = ComputeMerkleRoot L (buildBlock L core c).Transactions := rfl

theorem buildBlock_Hash (L : Lib) (core : AurumCore) (c : Call) :
    (buildBlock L core c).Hash = HashBlock L (buildBlock L core c) := rfl

theorem buildBlock_Locked (L : Lib) (core : AurumCore) (c : Call) :
    (buildBlock L core c).Locked = true := rfl

/-- The two outcomes of `AppendBlock`: an error and the engine as it was, or the block it
built, appended. -/
theorem AppendBlock_cases (L : Lib) (core : AurumCore) (disk : Disk) (c : Call) :
    ((∃ err, (AppendBlock L core disk c).result = .error err) ∧
        (AppendBlock L core disk c).core = core) ∨
    ((AppendBlock L core disk c).result = .ok (buildBlock L core c) ∧
        (AppendBlock L core disk c).core =
          { core with blocks := core.blocks ++ [buildBlock L core c] }) := by
  unfold AppendBlock
  cases h : c.disk <;> simp [writeToDisk, h]

/-- The chain after `AppendBlock` is the chain before it, or that chain and the block built. -/
theorem AppendBlock_blocks (L : Lib) (core : AurumCore) (disk : Disk) (c : Call) :
    (AppendBlock L core disk c).core.blocks = core.blocks ∨
    (AppendBlock L core disk c).core.blocks = core.blocks ++ [buildBlock L core c] := by
  rcases AppendBlock_cases L core disk c with ⟨_, h⟩ | ⟨_, h⟩ <;> simp [h]

/-- A property of the chain that holds of the chain at the start and that every append of
the block `AppendBlock` builds preserves, holds after every run. -/
theorem runCalls_induction (L : Lib) (P : List Block → Prop)
    (step : ∀ (core : AurumCore) (c : Call), P core.blocks →
      P (core.blocks ++ [buildBlock L core c]))
    (calls : List Call) (core : AurumCore) (disk : Disk) (h : P core.blocks) :
    P (runCalls L core disk calls).1.blocks := by
  induction calls generalizing core disk with
  | nil => simpa [runCalls] using h
  | cons c cs ih =>
    simp only [runCalls]
    apply ih
    rcases AppendBlock_blocks L core disk c with h1 | h1
    · rw [h1]; exact h
    · rw [h1]; exact step core c h

/-- The linkage of a chain: the first block points at the genesis value, every later block
at the digest of the block before it. -/
def Linked (blocks : List Block) : Prop :=
  (0 < blocks.length → (blocks.getD 0 Block.zero).PreviousHash = genesisHash) ∧
  ∀ i, 1 ≤ i → i < blocks.length →
    (blocks.getD i Block.zero).PreviousHash = (blocks.getD (i - 1) Block.zero).Hash

theorem Linked_append (L : Lib) (core : AurumCore) (c : Call) (h : Linked core.blocks) :
    Linked (core.blocks ++ [buildBlock L core c]) := by
  obtain ⟨h0, hi⟩ := h
  constructor
  · intro _
    by_cases hlen : 0 < core.blocks.length
    · rw [List.getD_append _ _ _ _ hlen]; exact h0 hlen
    · have : core.blocks = [] := List.length_eq_zero.mp (by omega)
      simp [this, buildBlock_PreviousHash]
  · intro i h1 h2
    simp only [List.length_append, List.length_singleton] at h2
    by_cases hlt : i < core.blocks.length
    · rw [List.getD_append _ _ _ _ hlt, List.getD_append _ _ _ _ (by omega)]
      exact hi i h1 hlt
    · have hi' : i = core.blocks.length := by omega
      subst hi'
      rw [List.getD_append _ _ _ _ (by omega : core.blocks.length - 1 < core.blocks.length)]
      have hpos : 0 < core.blocks.length := by omega
      simp [buildBlock_PreviousHash, lastBlock, hpos]

theorem wrapInt64_of_range (x : Int) (h0 : -2 ^ 63 ≤ x) (h1 : x < 2 ^ 63) : wrapInt64 x = x := by
  unfold wrapInt64
  omega

/-- The heights of a chain: the block at a position below `2 ^ 63` has that position as
`Index`. -/
def Heights (blocks : List Block) : Prop :=
  ∀ i, i < blocks.length → i < 2 ^ 63 → (blocks.getD i Block.zero).Index = (i : Int)

theorem buildBlock_Index_of_Heights (L : Lib) (core : AurumCore) (c : Call)
    (h : Heights core.blocks) (hlen : core.blocks.length < 2 ^ 63) :
    (buildBlock L core c).Index = (core.blocks.length : Int) := by
  rw [buildBlock_Index]
  by_cases hpos : 0 < core.blocks.length
  · have hl := h (core.blocks.length - 1) (by omega) (by omega)
    simp only [gt_iff_lt, hpos, if_true, lastBlock, hl]
    rw [wrapInt64_of_range _ (by omega) (by omega)]
    omega
  · have : core.blocks.length = 0 := by omega
    simp [this]

theorem Heights_append (L : Lib) (core : AurumCore) (c : Call) (h : Heights core.blocks) :
    Heights (core.blocks ++ [buildBlock L core c]) := by
  intro i h1 h2
  simp only [List.length_append, List.length_singleton] at h1
  by_cases hlt : i < core.blocks.length
  · rw [List.getD_append _ _ _ _ hlt]
    exact h i hlt h2
  · have hi : i = core.blocks.length := by omega
    subst hi
    simp only [List.getD_eq_getElem?_getD, List.getElem?_concat_length, Option.getD_some]
    exact buildBlock_Index_of_Heights L core c h h2

theorem Heights_runCalls (L : Lib) (filepath : String) (privKey pubKey : Bytes) (disk : Disk)
    (calls : List Call) :
    Heights (runCalls L (emptyCore filepath privKey pubKey) disk calls).1.blocks :=
  runCalls_induction L Heights (Heights_append L) calls _ disk
    (fun i hi => by simp [emptyCore] at hi)

/-- The block `AppendBlock` returns is the block it built. -/
theorem AppendBlock_ok (L : Lib) (core : AurumCore) (disk : Disk) (c : Call) (b : Block)
    (h : (AppendBlock L core disk c).result = .ok b) : b = buildBlock L core c := by
  rcases AppendBlock_cases L core disk c with ⟨⟨err, he⟩, _⟩ | ⟨hr, _⟩
  · rw [he] at h; cases h
  · rw [hr] at h; cases h; rfl

/-- A call whose write completes returns the block built and appends it. -/
theorem AppendBlock_complete (L : Lib) (core : AurumCore) (disk : Disk) (c : Call)
    (h : c.disk = .complete) :
    AppendBlock L core disk c =
      { result := .ok (buildBlock L core c),
        core := { core with blocks := core.blocks ++ [buildBlock L core c] },
        disk := some (disk.getD [] ++ recordBytes L (buildBlock L core c)) } := by
  simp [AppendBlock, writeToDisk, h]

theorem AppendBlock_complete_result (L : Lib) (core : AurumCore) (disk : Disk) (c : Call)
    (h : c.disk = .complete) :
    (AppendBlock L core disk c).result = .ok (buildBlock L core c) := by
  rw [AppendBlock_complete L core disk c h]

/-- The characters of a lowercase hexadecimal string. -/
def hexChars : List Char := "0123456789abcdef".data

theorem hexDigit_mem (n : Nat) (h : n < 16) : hexDigit n ∈ hexChars := by
  interval_cases n <;> decide

theorem hexEncode_lowercase (bs : Bytes) : ∀ ch ∈ (hexEncode bs).data, ch ∈ hexChars := by
  intro ch hch
  simp only [hexEncode, List.mem_flatMap, List.mem_cons, List.mem_singleton, List.not_mem_nil,
    or_false] at hch
  obtain ⟨b, _, h | h⟩ := hch
  · rw [h]; exact hexDigit_mem _ (Nat.mod_lt _ (by decide))
  · rw [h]; exact hexDigit_mem _ (Nat.mod_lt _ (by decide))

/-! ## The Merkle reduction of the specification -/

/-- The next level of the reduction, in the words of the specification: `hash (a ++ b)` for
each adjacent pair at an even offset, an unpaired trailing element carried up unchanged. -/
def specNextLevel (hash : String → String) : List String → List String
  | a :: b :: rest => hash (a ++ b) :: specNextLevel hash rest
  | [a] => [a]
  | [] => []

theorem specNextLevel_length (hash : String → String) (level : List String) :
    (specNextLevel hash level).length = (level.length + 1) / 2 := by
  induction level using specNextLevel.induct hash with
  | case1 a b rest ih => simp only [specNextLevel, List.length_cons, ih]; omega
  | case2 a => simp [specNextLevel]
  | case3 => simp [specNextLevel]

/-- The root of the reduction, in the words of the specification: the level is reduced to the
next until exactly one hash remains. There is no root of the empty level. -/
def specRoot (hash : String → String) (level : List String) : Option String :=
  match level with
  | [] => none
  | [d] => some d
  | a :: b :: rest => specRoot hash (specNextLevel hash (a :: b :: rest))
termination_by level.length
decreasing_by
  simp only [specNextLevel_length, List.length_cons]
  omega

/-- The commitment of the specification over a list of transaction digests. -/
def specMerkleRoot (hash : String → String) (digests : List String) : Option String :=
  if digests.length = 0 then some (hash "empty") else specRoot hash digests

theorem getD_append_length {α : Type} (pre : List α) (a : α) (rest : List α) (d : α) :
    (pre ++ a :: rest).getD pre.length d = a := by
  induction pre with
  | nil => rfl
  | cons x xs ih => simpa using ih

theorem nextLevelLoop_done (L : Lib) (hashes : List String) (fuel i : Nat) (acc : List String)
    (h : hashes.length ≤ i) : nextLevelLoop L hashes fuel i acc = acc := by
  cases fuel with
  | zero => rfl
  | succ n => simp [nextLevelLoop, Nat.not_lt.mpr h]

/-- The inner loop, started at the end of `pre` with enough fuel, adds the next level of the
rest of the list. -/
theorem nextLevelLoop_eq (L : Lib) (fuel : Nat) (pre suf acc : List String)
    (hf : suf.length ≤ 2 * fuel) :
    nextLevelLoop L (pre ++ suf) fuel pre.length acc = acc ++ specNextLevel (sha256Hex L) suf := by
  induction fuel generalizing pre suf acc with
  | zero =>
    have : suf = [] := List.length_eq_zero.mp (by omega)
    simp [this, nextLevelLoop, specNextLevel]
  | succ n ih =>
    match suf, hf with
    | [], _ => simp [nextLevelLoop, specNextLevel]
    | [a], _ =>
      simp only [nextLevelLoop, List.length_append, List.length_singleton, Nat.lt_succ_self,
        if_true, lt_self_iff_false, if_false, specNextLevel]
      rw [nextLevelLoop_done L _ _ _ _ (by simp)]
      simp [List.getD_eq_getElem?_getD]
    | a :: b :: rest, hf =>
      have h1 : pre.length < (pre ++ a :: b :: rest).length := by simp
      have h2 : pre.length + 1 < (pre ++ a :: b :: rest).length := by simp
      have ha : (pre ++ a :: b :: rest).getD pre.length "" = a := getD_append_length _ _ _ _
      have hb : (pre ++ a :: b :: rest).getD (pre.length + 1) "" = b := by
        have := getD_append_length (pre ++ [a]) b rest ""
        simpa using this
      have hsplit : pre ++ a :: b :: rest = (pre ++ [a, b]) ++ rest := by simp
      have hlen : pre.length + 2 = (pre ++ [a, b]).length := by simp
      simp only [nextLevelLoop, h1, h2, if_true, ha, hb, specNextLevel]
      rw [hsplit, hlen, ih (pre ++ [a, b]) rest _ (by simp only [List.length_cons] at hf; omega)]
      simp

theorem nextLevel_eq (L : Lib) (hashes : List String) :
    nextLevel L hashes = specNextLevel (sha256Hex L) hashes := by
  have := nextLevelLoop_eq L hashes.length [] hashes [] (by omega)
  simpa [nextLevel] using this

/-- The outer loop, run on a non-empty level with at least as much fuel as the level is long,
ends with the root of the specification as the only element. -/
theorem merkleLoop_eq (L : Lib) (fuel : Nat) (level : List String) (hne : level ≠ [])
    (hf : level.length ≤ fuel) :
    ∃ r, specRoot (sha256Hex L) level = some r ∧ merkleLoop L fuel level = [r] := by
  induction fuel generalizing level with
  | zero => exact absurd (List.length_eq_zero.mp (by omega)) hne
  | succ n ih =>
    match level, hne, hf with
    | [d], _, _ => exact ⟨d, by simp [specRoot], by simp [merkleLoop]⟩
    | a :: b :: rest, _, hf =>
      have hlen : (specNextLevel (sha256Hex L) (a :: b :: rest)).length ≤ n := by
        rw [specNextLevel_length]; simp only [List.length_cons] at hf ⊢; omega
      have hne2 : specNextLevel (sha256Hex L) (a :: b :: rest) ≠ [] := by simp [specNextLevel]
      obtain ⟨r, hr1, hr2⟩ := ih _ hne2 hlen
      refine ⟨r, ?_, ?_⟩
      · rw [specRoot]; exact hr1
      · simp only [merkleLoop, List.length_cons, gt_iff_lt, nextLevel_eq]
        rw [if_pos (by omega)]; exact hr2

theorem ComputeMerkleRoot_eq_specRoot (L : Lib) (txs : List Transaction) (hne : txs ≠ []) :
    specRoot (sha256Hex L) (txs.map fun tx => tx.TxHash) = some (ComputeMerkleRoot L txs) ∧
    ∀ fuel, txs.length ≤ fuel →
      merkleLoop L fuel (txs.map fun tx => tx.TxHash) = [ComputeMerkleRoot L txs] := by
  have hne2 : (txs.map fun tx => tx.TxHash) ≠ [] := by simpa using hne
  have hlen : txs.length ≠ 0 := fun h => hne (List.length_eq_zero.mp h)
  obtain ⟨r, hr1, hr2⟩ := merkleLoop_eq L txs.length _ hne2 (by simp)
  have hroot : ComputeMerkleRoot L txs = r := by simp [ComputeMerkleRoot, hlen, hr2]
  refine ⟨by rw [hroot]; exact hr1, ?_⟩
  intro fuel hf
  obtain ⟨r2, hs1, hs2⟩ := merkleLoop_eq L fuel _ hne2 (by simpa using hf)
  rw [hr1] at hs1
  cases hs1
  rw [hroot]; exact hs2

/-- A transaction with the digest `d`. -/
def txOf (d : String) : Transaction := { TxHash := d, Timestamp := 0, Data := none }

/-! ## Lemmas on the ledger file -/

theorem getInt32LE_putInt32LE (n : Nat) (h : n < 2 ^ 31) :
    getInt32LE (putInt32LE (wrapInt32 n)) = (n : Int) := by
  have hw : wrapInt32 (n : Int) = (n : Int) := by unfold wrapInt32; omega
  have hu : ((n : Int) % 2 ^ 32).toNat = n := by omega
  simp only [hw, putInt32LE, hu, getInt32LE, List.getD_cons_zero, List.getD_cons_succ]
  unfold wrapInt32
  omega

theorem putInt32LE_length (v : Int) : (putInt32LE v).length = 4 := rfl

/-- The block read back from the record of `b`. -/
def reread (L : Lib) (b : Block) : Block :=
  L.jsonUnmarshalBlock ((L.jsonMarshalBlock b).getD [])

/-- The records of a chain, one after the other. -/
def recordsOf (L : Lib) (blocks : List Block) : Bytes := blocks.flatMap (recordBytes L)

/-- The text of a block is no longer than `maxRW` bytes, what one `f.Read` returns. -/
def FitsRead (L : Lib) (b : Block) : Prop := ((L.jsonMarshalBlock b).getD []).length ≤ maxRW

instance (L : Lib) (b : Block) : Decidable (FitsRead L b) := by
  unfold FitsRead; infer_instance

theorem recordBytes_length (L : Lib) (b : Block) :
    (recordBytes L b).length = 4 + ((L.jsonMarshalBlock b).getD []).length := by
  simp [recordBytes, putInt32LE_length, Nat.add_comm]

theorem recordsOf_eq_nil (L : Lib) (blocks : List Block) (h : recordsOf L blocks = []) :
    blocks = [] := by
  cases blocks with
  | nil => rfl
  | cons b bs =>
    have := congrArg List.length h
    simp [recordsOf, recordBytes_length] at this

/-- One round of the loop of `loadFromDisk` over a complete record. -/
theorem loadLoop_record (L : Lib) (fuel : Nat) (b : Block) (rest : Bytes) (acc : List Block)
    (hb : FitsRead L b) :
    loadLoop L (fuel + 1) (recordBytes L b ++ rest) acc = loadLoop L fuel rest (acc ++ [reread L b]) := by
  unfold FitsRead maxRW at hb
  unfold reread
  have hrec : recordBytes L b
      = putInt32LE (wrapInt32 ((L.jsonMarshalBlock b).getD []).length)
        ++ (L.jsonMarshalBlock b).getD [] := rfl
  generalize (L.jsonMarshalBlock b).getD [] = body at hb hrec
  have hlen : ¬ (recordBytes L b ++ rest).length < 4 := by
    simp only [hrec, List.length_append, putInt32LE_length]; omega
  have htake : (recordBytes L b ++ rest).take 4 = putInt32LE (wrapInt32 body.length) := by
    simp [hrec, List.take_append_eq_append_take, putInt32LE_length]
  have hdrop : (recordBytes L b ++ rest).drop 4 = body ++ rest := by
    simp [hrec, List.drop_append_eq_append_drop, putInt32LE_length]
  rw [loadLoop]
  simp only [hlen, if_false, htake, hdrop, getInt32LE_putInt32LE _ (by omega : body.length < 2 ^ 31),
    Int.toNat_ofNat]
  split_ifs with h1 h2
  · omega
  · simp only [List.length_append] at h2; omega
  · have hmin : min (min body.length maxRW) (body ++ rest).length = body.length := by
      simp only [List.length_append, maxRW]; omega
    rw [hmin]
    simp

/-- The loop of `loadFromDisk` over the records of a chain reads every block back. -/
theorem loadLoop_recordsOf (L : Lib) (blocks : List Block) (fuel : Nat) (acc : List Block)
    (hfit : ∀ b ∈ blocks, FitsRead L b) (hfuel : (recordsOf L blocks).length < fuel) :
    loadLoop L fuel (recordsOf L blocks) acc = .ok (acc ++ blocks.map (reread L)) := by
  induction blocks generalizing fuel acc with
  | nil =>
    cases fuel with
    | zero => simp [recordsOf] at hfuel
    | succ n => simp [recordsOf, loadLoop]
  | cons b bs ih =>
    cases fuel with
    | zero => simp at hfuel
    | succ n =>
      have hsplit : recordsOf L (b :: bs) = recordBytes L b ++ recordsOf L bs := by
        simp [recordsOf]
      rw [hsplit, loadLoop_record L n b _ acc (hfit b (by simp))]
      rw [ih n _ (fun x hx => hfit x (by simp [hx]))]
      · simp
      · rw [hsplit, List.length_append, recordBytes_length] at hfuel
        omega

theorem loadLoop_short (L : Lib) (fuel : Nat) (rest : Bytes) (acc : List Block)
    (h : rest.length < 4) : loadLoop L fuel rest acc = .ok acc := by
  cases fuel with
  | zero => rfl
  | succ n => rw [loadLoop]; simp only [h, if_true]

/-- The loop of `loadFromDisk` gives the same result for every fuel above the number of
unread bytes: it never runs out of the fuel `loadFromDisk` gives it. -/
theorem loadLoop_fuel (L : Lib) (f1 f2 : Nat) (rest : Bytes) (acc : List Block)
    (h1 : rest.length < f1) (h2 : rest.length < f2) :
    loadLoop L f1 rest acc = loadLoop L f2 rest acc := by
  induction f1 generalizing f2 rest acc with
  | zero => omega
  | succ n ih =>
    cases f2 with
    | zero => omega
    | succ m =>
      rw [loadLoop, loadLoop]
      dsimp only
      split_ifs with c1 c2 c3
      · rfl
      · rfl
      · rfl
      · apply ih
        · simp only [List.length_drop]; omega
        · simp only [List.length_drop]; omega

/-- The loop of `loadFromDisk` over the records of a chain followed by a tail reads every
block back and goes on with the tail. -/
theorem loadLoop_recordsOf_append (L : Lib) (blocks : List Block) (tail : Bytes) (fuel : Nat)
    (acc : List Block) (hfit : ∀ b ∈ blocks, FitsRead L b)
    (hfuel : (recordsOf L blocks ++ tail).length < fuel) :
    loadLoop L fuel (recordsOf L blocks ++ tail) acc
      = loadLoop L (tail.length + 1) tail (acc ++ blocks.map (reread L)) := by
  induction blocks generalizing fuel acc with
  | nil =>
    simp only [recordsOf, List.flatMap_nil, List.nil_append, List.map_nil, List.append_nil] at hfuel ⊢
    exact loadLoop_fuel L _ _ _ _ hfuel (by omega)
  | cons b bs ih =>
    cases fuel with
    | zero => simp at hfuel
    | succ n =>
      have hsplit : recordsOf L (b :: bs) ++ tail = recordBytes L b ++ (recordsOf L bs ++ tail) := by
        simp [recordsOf]
      rw [hsplit, loadLoop_record L n b _ acc (hfit b (by simp))]
      rw [ih n _ (fun x hx => hfit x (by simp [hx]))]
      · simp
      · rw [hsplit, List.length_append, recordBytes_length] at hfuel
        omega

/-- One round of the loop of `loadFromDisk` over a length prefix that no body byte follows. -/
theorem loadLoop_prefix_only (L : Lib) (fuel n : Nat) (acc : List Block) (h0 : 0 < n)
    (hn : n < 2 ^ 31) :
    loadLoop L (fuel + 1) (putInt32LE (wrapInt32 n)) acc = .ok acc := by
  have htake : (putInt32LE (wrapInt32 n)).take 4 = putInt32LE (wrapInt32 n) := rfl
  have hdrop : (putInt32LE (wrapInt32 n)).drop 4 = [] := rfl
  rw [loadLoop]
  simp only [putInt32LE_length, lt_self_iff_false, if_false, htake, hdrop,
    getInt32LE_putInt32LE n hn, Int.toNat_ofNat, List.length_nil]
  split_ifs with c1 c2
  · omega
  · rfl
  · exact absurd ⟨by omega, by simp⟩ c2

/-- One round of the loop of `loadFromDisk` over a length prefix and a part of the body. -/
theorem loadLoop_partial_body (L : Lib) (fuel n : Nat) (part : Bytes) (acc : List Block)
    (hne : part ≠ []) (hlt : part.length < n) (hn : n < 2 ^ 31) (hrw : part.length ≤ maxRW) :
    loadLoop L (fuel + 1) (putInt32LE (wrapInt32 n) ++ part) acc
      = .ok (acc ++ [L.jsonUnmarshalBlock (part ++ List.replicate (n - part.length) 0)]) := by
  have hpos : 0 < part.length := List.length_pos.mpr hne
  have hlen : ¬ (putInt32LE (wrapInt32 n) ++ part).length < 4 := by
    simp [putInt32LE_length]
  have htake : (putInt32LE (wrapInt32 n) ++ part).take 4 = putInt32LE (wrapInt32 n) := by
    simp [List.take_append_eq_append_take, putInt32LE_length]
  have hdrop : (putInt32LE (wrapInt32 n) ++ part).drop 4 = part := by
    simp [List.drop_append_eq_append_drop, putInt32LE_length]
  rw [loadLoop]
  simp only [hlen, if_false, htake, hdrop, getInt32LE_putInt32LE n hn, Int.toNat_ofNat]
  split_ifs with c1 c2
  · omega
  · omega
  · have hmin : min (min n maxRW) part.length = part.length := by omega
    rw [hmin, List.take_length, List.drop_length]
    exact loadLoop_short L _ _ _ (by simp)

theorem loadFromDisk_some (L : Lib) (core : AurumCore) (file : Bytes) :
    loadFromDisk L core (some file) =
      if file.length = 0 then .ok core
      else
        match loadLoop L (file.length + 1) file core.blocks with
        | .ok blocks => .ok { core with blocks := blocks }
        | .error e => .error e := rfl

/-- What `loadFromDisk` makes of a file of complete records followed by a truncated one. A
length prefix of fewer than four bytes is dropped, and so is a full prefix that no body byte
follows; a body cut off after at least one byte (and at most `maxRW` bytes, one read) is read
as one more block, from the bytes there are and zero bytes in place of the missing ones. -/
theorem loadFromDisk_truncated (L : Lib) (core : AurumCore) (blocks : List Block)
    (hfit : ∀ b ∈ blocks, FitsRead L b) :
    (∀ tail : Bytes, tail.length < 4 →
      loadFromDisk L core (some (recordsOf L blocks ++ tail))
        = .ok { core with blocks := core.blocks ++ blocks.map (reread L) }) ∧
    (∀ n : Nat, 0 < n → n < 2 ^ 31 →
      loadFromDisk L core (some (recordsOf L blocks ++ putInt32LE (wrapInt32 n)))
        = .ok { core with blocks := core.blocks ++ blocks.map (reread L) }) ∧
    (∀ (n : Nat) (part : Bytes), part ≠ [] → part.length < n → n < 2 ^ 31 →
      part.length ≤ maxRW →
      loadFromDisk L core (some (recordsOf L blocks ++ (putInt32LE (wrapInt32 n) ++ part)))
        = .ok { core with blocks := core.blocks ++ blocks.map (reread L) ++
            [L.jsonUnmarshalBlock (part ++ List.replicate (n - part.length) 0)] }) := by
  refine ⟨?_, ?_, ?_⟩
  · intro tail ht
    rw [loadFromDisk_some]
    by_cases hz : (recordsOf L blocks ++ tail).length = 0
    · have hnil : recordsOf L blocks = [] := by
        have := List.length_eq_zero.mp hz
        simp only [List.append_eq_nil] at this
        exact this.1
      rw [if_pos hz, recordsOf_eq_nil L blocks hnil]
      simp
    · rw [if_neg hz, loadLoop_recordsOf_append L blocks tail _ _ hfit (by omega),
        loadLoop_short L _ _ _ ht]
  · intro n h0 hn
    have hz : (recordsOf L blocks ++ putInt32LE (wrapInt32 n)).length ≠ 0 := by
      simp [putInt32LE_length]
    rw [loadFromDisk_some, if_neg hz, loadLoop_recordsOf_append L blocks _ _ _ hfit (by omega),
      loadLoop_prefix_only L _ n _ h0 hn]
  · intro n part hne hlt hn hrw
    have hz : (recordsOf L blocks ++ (putInt32LE (wrapInt32 n) ++ part)).length ≠ 0 := by
      simp [putInt32LE_length]
    rw [loadFromDisk_some, if_neg hz, loadLoop_recordsOf_append L blocks _ _ _ hfit (by omega),
      loadLoop_partial_body L _ n part _ hne hlt hn hrw]

/-- A write that leaves no part of a record in the file: it completes, or stores nothing. -/
def NoTornWrite : DiskOutcome → Prop
  | .openFails _ => True
  | .shortWrite n _ => n = 0
  | .complete => True

instance (o : DiskOutcome) : Decidable (NoTornWrite o) := by
  cases o <;> unfold NoTornWrite <;> infer_instance

/-- The engine keeps its path and its keys. -/
theorem AppendBlock_frame (L : Lib) (core : AurumCore) (disk : Disk) (c : Call) :
    (AppendBlock L core disk c).core.filepath = core.filepath ∧
    (AppendBlock L core disk c).core.privateKey = core.privateKey ∧
    (AppendBlock L core disk c).core.publicKey = core.publicKey := by
  rcases AppendBlock_cases L core disk c with ⟨_, h⟩ | ⟨_, h⟩ <;> simp [h]

/-- After a run without torn writes on a file that held the records of the chain, the file
holds the records of the chain. -/
theorem runCalls_recordsOf (L : Lib) (calls : List Call) (core : AurumCore) (disk : Disk)
    (hcalls : ∀ c ∈ calls, NoTornWrite c.disk) (h : disk.getD [] = recordsOf L core.blocks) :
    (runCalls L core disk calls).2.getD [] = recordsOf L (runCalls L core disk calls).1.blocks ∧
    (runCalls L core disk calls).1.filepath = core.filepath ∧
    (runCalls L core disk calls).1.privateKey = core.privateKey ∧
    (runCalls L core disk calls).1.publicKey = core.publicKey := by
  induction calls generalizing core disk with
  | nil => simp [runCalls, h]
  | cons c cs ih =>
    simp only [runCalls]
    obtain ⟨f1, f2, f3⟩ := AppendBlock_frame L core disk c
    have hc : NoTornWrite c.disk := hcalls c (by simp)
    have hstep : (AppendBlock L core disk c).disk.getD []
        = recordsOf L (AppendBlock L core disk c).core.blocks := by
      unfold AppendBlock
      cases hd : c.disk with
      | openFails err => simp [writeToDisk, h]
      | shortWrite n err =>
        rw [hd] at hc
        simp only [NoTornWrite] at hc
        simp [writeToDisk, h, hc]
      | complete => simp [writeToDisk, h, recordsOf]
    obtain ⟨g0, g1, g2, g3⟩ := ih _ _ (fun x hx => hcalls x (by simp [hx])) hstep
    exact ⟨g0, g1.trans f1, g2.trans f2, g3.trans f3⟩

/-- An engine constructed on a file that holds the records of a chain holds the blocks read
back from them. -/
theorem NewAurumCore_recordsOf (L : Lib) (filepath : String) (privKey : Bytes) (disk : Disk)
    (blocks : List Block) (hfit : ∀ b ∈ blocks, FitsRead L b)
    (h : disk.getD [] = recordsOf L blocks) :
    NewAurumCore L filepath privKey disk =
      .ok { blocks := blocks.map (reread L), filepath := filepath, privateKey := privKey,
            publicKey := L.edPublic privKey } := by
  unfold NewAurumCore loadFromDisk
  cases disk with
  | none =>
    have : blocks = [] := recordsOf_eq_nil L blocks (by simpa using h.symm)
    simp [this]
  | some file =>
    simp only [Option.getD_some] at h
    by_cases hz : file.length = 0
    · have : blocks = [] := recordsOf_eq_nil L blocks
        (by rw [← h]; exact List.length_eq_zero.mp hz)
      simp [hz, this]
    · simp only [hz, if_false]
      rw [h, loadLoop_recordsOf L blocks _ [] hfit (by omega)]
      simp

/-- A call that returns a block is a call whose write completed. -/
theorem AppendBlock_ok_complete (L : Lib) (core : AurumCore) (disk : Disk) (c : Call) (b : Block)
    (h : (AppendBlock L core disk c).result = .ok b) : c.disk = .complete := by
  unfold AppendBlock at h
  cases hd : c.disk <;> simp_all [writeToDisk]

/-- The file after `AppendBlock` starts with the file before it. -/
theorem AppendBlock_disk_prefix (L : Lib) (core : AurumCore) (disk : Disk) (c : Call) :
    disk.getD [] <+: (AppendBlock L core disk c).disk.getD [] := by
  unfold AppendBlock
  cases hd : c.disk <;> simp [writeToDisk]

/-- The four bytes of a length below `2 ^ 31`, least significant byte first. -/
theorem putInt32LE_of_lt (n : Nat) (h : n < 2 ^ 31) :
    putInt32LE (wrapInt32 n) = [n % 256, n / 256 % 256, n / 65536 % 256, n / 16777216 % 256] := by
  have hw : wrapInt32 (n : Int) = (n : Int) := by unfold wrapInt32; omega
  have hu : ((n : Int) % 2 ^ 32).toNat = n := by omega
  simp only [hw, putInt32LE, hu]

/-- The queries on a chain that ends with the block `b`. -/
theorem queries_after_append (blocks : List Block) (b : Block) (filepath : String)
    (privKey pubKey : Bytes) :
    GetLatest { blocks := blocks ++ [b], filepath := filepath, privateKey := privKey,
                publicKey := pubKey } = b ∧
    GetChainStatus { blocks := blocks ++ [b], filepath := filepath, privateKey := privKey,
                     publicKey := pubKey }
      = .ok { height := blocks.length + 1, latest_hash := b.Hash, integrity := "secure" } := by
  constructor
  · simp [GetLatest, lastBlock, List.getD_eq_getElem?_getD]
  · have hi : ¬ (((blocks ++ [b]).length : Int) - 1 < 0) := by
      simp only [List.length_append, List.length_singleton]; omega
    have ht : (((blocks ++ [b]).length : Int) - 1).toNat = blocks.length := by
      simp only [List.length_append, List.length_singleton]; omega
    simp only [GetChainStatus, hi, if_false, ht]
    simp [List.getD_eq_getElem?_getD]

/-! ## Lemmas on the concrete library

The text `marshalBlock` writes for a block whose payloads hold native values is read back by
`unmarshalBlock` as the block: integers through `readInt`, strings through `readString`,
payload values through `readValue`, then maps, transactions and blocks. -/

theorem expect_append (lit rest : Bytes) : expect lit (lit ++ rest) = some rest := by
  have h : lit.isPrefixOf (lit ++ rest) = true :=
    List.isPrefixOf_iff_prefix.mpr (List.prefix_append _ _)
  simp [expect, h]

theorem expect_cons_ne (a b : Nat) (lit rest : Bytes) (h : a ≠ b) :
    expect (a :: lit) (b :: rest) = none := by
  simp [expect, List.isPrefixOf, h]

theorem stringBytes_ascii (cs : List Char) (h : ∀ c ∈ cs, c.toNat < 128) :
    stringBytes (String.mk cs) = cs.map fun c => c.toNat := by
  induction cs with
  | nil => rfl
  | cons c cs ih =>
    have hc : c.toNat < 128 := h c (by simp)
    have ih2 := ih (fun x hx => h x (by simp [hx]))
    simp only [stringBytes] at ih2 ⊢
    simp only [List.flatMap_cons, List.map_cons, ih2]
    simp [utf8Encode, hc]

theorem digitChar_toNat (d : Nat) (h : d < 10) : (Nat.digitChar d).toNat = 48 + d := by
  interval_cases d <;> rfl

/-- The digits `Nat.toDigitsCore` puts before `ds`: bytes of decimal digits, the first of
which is not a zero unless the number is, read back by `readDigits` as the number. -/
theorem toDigitsCore_spec (fuel : Nat) : ∀ (n : Nat) (ds : List Char), n < fuel →
    ∃ pre : List Char, Nat.toDigitsCore 10 fuel n ds = pre ++ ds ∧
      (∀ c ∈ pre, c.toNat < 128) ∧
      (∃ c cs, pre.map (fun c => c.toNat) = c :: cs ∧ 48 ≤ c ∧ c ≤ 57 ∧ (0 < n → 49 ≤ c) ∧
        (n = 0 → cs = [])) ∧
      ∃ k, ∀ (acc : Nat) (tail : Bytes),
        readDigits (pre.map (fun c => c.toNat) ++ tail) acc = readDigits tail (acc * 10 ^ k + n) := by
  induction fuel with
  | zero => intro n ds h; omega
  | succ f ih =>
    intro n ds h
    have hd : (Nat.digitChar (n % 10)).toNat = 48 + n % 10 :=
      digitChar_toNat _ (Nat.mod_lt _ (by decide))
    by_cases h0 : n / 10 = 0
    · refine ⟨[Nat.digitChar (n % 10)], ?_, ?_, ?_, 1, ?_⟩
      · simp [Nat.toDigitsCore, h0]
      · intro c hc
        simp only [List.mem_singleton] at hc
        rw [hc, hd]; omega
      · refine ⟨48 + n % 10, [], by simp [hd], by omega, by omega, by omega, fun _ => rfl⟩
      · intro acc tail
        have hn : n % 10 = n := by omega
        simp only [List.map_cons, List.map_nil, List.singleton_append, hd, readDigits]
        have : 48 ≤ 48 + n % 10 ∧ 48 + n % 10 ≤ 57 := by omega
        simp only [this, and_self, if_true]
        congr 1
        omega
    · obtain ⟨pre, hpre, hascii, ⟨c, cs, hcs, hc1, hc2, hc3, _⟩, k, hk⟩ :=
        ih (n / 10) (Nat.digitChar (n % 10) :: ds) (by omega)
      refine ⟨pre ++ [Nat.digitChar (n % 10)], ?_, ?_, ?_, k + 1, ?_⟩
      · simp [Nat.toDigitsCore, h0, hpre]
      · intro x hx
        simp only [List.mem_append, List.mem_singleton] at hx
        rcases hx with hx | hx
        · exact hascii x hx
        · rw [hx, hd]; omega
      · refine ⟨c, cs ++ [48 + n % 10], by simp [hcs, hd], hc1, hc2,
          fun _ => hc3 (by omega), fun hn => absurd (by omega) h0⟩
      · intro acc tail
        simp only [List.map_append, List.map_cons, List.map_nil, List.append_assoc,
          List.singleton_append, hk, hd, readDigits]
        have : 48 ≤ 48 + n % 10 ∧ 48 + n % 10 ≤ 57 := by omega
        simp only [this, and_self, if_true]
        congr 1
        have := Nat.div_add_mod n 10
        rw [pow_succ]
        have h2 : 48 + n % 10 - 48 = n % 10 := by omega
        rw [h2]
        nlinarith [Nat.div_add_mod n 10]

/-- The text of a natural number: digits, the first not a zero unless the number is, read
back by `readDigits`. -/
theorem natText_spec (n : Nat) :
    ∃ c cs, stringBytes (toString n) = c :: cs ∧ 48 ≤ c ∧ c ≤ 57 ∧ (0 < n → 49 ≤ c) ∧
      (n = 0 → cs = []) ∧
      ∀ tail : Bytes, readDigits (c :: cs ++ tail) 0 = readDigits tail n := by
  obtain ⟨pre, hpre, hascii, ⟨c, cs, hcs, hc1, hc2, hc3, hc4⟩, k, hk⟩ :=
    toDigitsCore_spec (n + 1) n [] (by omega)
  have htext : stringBytes (toString n) = pre.map fun c => c.toNat := by
    have : toString n = String.mk pre := by
      show Nat.repr n = _
      simp only [Nat.repr, Nat.toDigits, hpre, List.append_nil, List.asString]
    rw [this, stringBytes_ascii pre hascii]
  refine ⟨c, cs, by rw [htext, hcs], hc1, hc2, hc3, hc4, ?_⟩
  intro tail
  have := hk 0 tail
  rw [hcs] at this
  simpa using this

theorem readDigits_stop (tail : Bytes) (n : Nat)
    (h : ∀ d, tail.head? = some d → ¬ (48 ≤ d ∧ d ≤ 57)) : readDigits tail n = (n, tail) := by
  cases tail with
  | nil => rfl
  | cons d ds =>
    have := h d rfl
    simp only [readDigits, this, if_false]

theorem jsonInt_ofNat (n : Nat) : jsonInt (n : Int) = stringBytes (toString n) := rfl

theorem jsonInt_negSucc (n : Nat) :
    jsonInt (Int.negSucc n) = 45 :: stringBytes (toString (n + 1)) := by
  show stringBytes ("-" ++ toString (n + 1)) = _
  simp only [stringBytes, String.data_append, List.flatMap_append]
  rfl

/-- An integer written by `jsonInt` is read back by `readInt`, when no digit follows it. -/
theorem readInt_jsonInt (n : Int) (tail : Bytes)
    (h : ∀ d, tail.head? = some d → ¬ (48 ≤ d ∧ d ≤ 57)) :
    readInt (jsonInt n ++ tail) = some (n, tail) := by
  cases n with
  | ofNat m =>
    obtain ⟨c, cs, htext, hc1, hc2, hc3, hc4, hread⟩ := natText_spec m
    rw [show (Int.ofNat m) = (m : Int) from rfl, jsonInt_ofNat, htext]
    have hneg : ¬ (c = 45) := by omega
    simp only [readInt, List.cons_append, List.head?_cons, Option.some.injEq, hneg, if_false]
    by_cases hz : c = 48
    · have hm : m = 0 := by
        by_contra hne
        have := hc3 (Nat.pos_of_ne_zero hne)
        omega
      have hcs := hc4 hm
      subst hcs
      subst hm
      simp only [hz, if_true, List.nil_append]
      cases tail with
      | nil => rfl
      | cons d ds =>
        have := h d rfl
        simp only [List.head?_cons, this, if_false]
        rfl
    · have hr : 49 ≤ c ∧ c ≤ 57 := by omega
      simp only [hz, if_false, hr, and_self, if_true]
      have := hread tail
      rw [List.cons_append] at this
      rw [this, readDigits_stop tail m h]
  | negSucc m =>
    obtain ⟨c, cs, htext, hc1, hc2, hc3, hc4, hread⟩ := natText_spec (m + 1)
    rw [jsonInt_negSucc, htext]
    have hz : ¬ (c = 48) := by have := hc3 (by omega); omega
    have hr : 49 ≤ c ∧ c ≤ 57 := by have := hc3 (by omega); omega
    simp only [readInt, List.cons_append, List.head?_cons, if_true, List.drop_succ_cons,
      List.drop_zero, hz, if_false, hr, and_self]
    have := hread tail
    rw [List.cons_append] at this
    rw [this, readDigits_stop tail _ h]
    rfl

theorem utf8Encode_ne_nil (c : Nat) : utf8Encode c ≠ [] := by
  unfold utf8Encode
  split_ifs <;> simp

theorem utf8Decode_one (f b : Nat) (rest : Bytes) (h : b < 128) :
    utf8Decode (f + 1) (b :: rest) = b :: utf8Decode f rest := by
  rw [utf8Decode]; simp only [h, if_true]

theorem utf8Decode_two (f b b1 : Nat) (rest : Bytes) (h : 192 ≤ b ∧ b < 224) :
    utf8Decode (f + 1) (b :: b1 :: rest) = ((b - 192) * 64 + (b1 - 128)) :: utf8Decode f rest := by
  have a1 : ¬ b < 128 := by omega
  have a2 : 192 ≤ b ∧ b < 224 ∧ 1 ≤ (b1 :: rest).length := by
    simp only [List.length_cons]; omega
  rw [utf8Decode]
  simp only [a1, if_false, a2, and_self, if_true, List.getD_cons_zero, List.drop_succ_cons,
    List.drop_zero]

theorem utf8Decode_three (f b b1 b2 : Nat) (rest : Bytes) (h : 224 ≤ b ∧ b < 240) :
    utf8Decode (f + 1) (b :: b1 :: b2 :: rest)
      = ((b - 224) * 4096 + (b1 - 128) * 64 + (b2 - 128)) :: utf8Decode f rest := by
  have a1 : ¬ b < 128 := by omega
  have a2 : ¬ (192 ≤ b ∧ b < 224 ∧ 1 ≤ (b1 :: b2 :: rest).length) := by omega
  have a3 : 224 ≤ b ∧ b < 240 ∧ 2 ≤ (b1 :: b2 :: rest).length := by
    simp only [List.length_cons]; omega
  rw [utf8Decode]
  simp only [a1, if_false, a2, a3, and_self, if_true, List.getD_cons_zero, List.getD_cons_succ,
    List.drop_succ_cons, List.drop_zero]

theorem utf8Decode_four (f b b1 b2 b3 : Nat) (rest : Bytes) (h : 240 ≤ b ∧ b < 248) :
    utf8Decode (f + 1) (b :: b1 :: b2 :: b3 :: rest)
      = ((b - 240) * 262144 + (b1 - 128) * 4096 + (b2 - 128) * 64 + (b3 - 128))
        :: utf8Decode f rest := by
  have a1 : ¬ b < 128 := by omega
  have a2 : ¬ (192 ≤ b ∧ b < 224 ∧ 1 ≤ (b1 :: b2 :: b3 :: rest).length) := by omega
  have a3 : ¬ (224 ≤ b ∧ b < 240 ∧ 2 ≤ (b1 :: b2 :: b3 :: rest).length) := by omega
  have a4 : 240 ≤ b ∧ b < 248 ∧ 3 ≤ (b1 :: b2 :: b3 :: rest).length := by
    simp only [List.length_cons]; omega
  rw [utf8Decode]
  simp only [a1, if_false, a2, a3, a4, and_self, if_true, List.getD_cons_zero,
    List.getD_cons_succ, List.drop_succ_cons, List.drop_zero]

/-- One code point written by `utf8Encode` is read back by `utf8Decode`. -/
theorem utf8Decode_encode (c : Nat) (hc : c < 1114112) (fuel : Nat) (tail : Bytes) :
    utf8Decode (fuel + 1) (utf8Encode c ++ tail) = c :: utf8Decode fuel tail := by
  by_cases h1 : c < 128
  · have he : utf8Encode c = [c] := by simp [utf8Encode, h1]
    rw [he, List.singleton_append, utf8Decode_one _ _ _ h1]
  · by_cases h2 : c < 2048
    · have he : utf8Encode c = [192 + c / 64, 128 + c % 64] := by simp [utf8Encode, h1, h2]
      rw [he]
      simp only [List.cons_append, List.nil_append]
      rw [utf8Decode_two _ _ _ _ (by omega)]
      simp only [List.cons.injEq, and_true]
      omega
    · by_cases h3 : c < 65536
      · have he : utf8Encode c = [224 + c / 4096, 128 + c / 64 % 64, 128 + c % 64] := by
          simp [utf8Encode, h1, h2, h3]
        rw [he]
        simp only [List.cons_append, List.nil_append]
        rw [utf8Decode_three _ _ _ _ _ (by omega)]
        simp only [List.cons.injEq, and_true]
        omega
      · have he : utf8Encode c
            = [240 + c / 262144, 128 + c / 4096 % 64, 128 + c / 64 % 64, 128 + c % 64] := by
          simp [utf8Encode, h1, h2, h3]
        rw [he]
        simp only [List.cons_append, List.nil_append]
        rw [utf8Decode_four _ _ _ _ _ _ (by omega)]
        simp only [List.cons.injEq, and_true]
        omega

theorem Char_toNat_lt (c : Char) : c.toNat < 1114112 := by
  have := c.valid
  simp only [Char.toNat]
  rcases this with h | ⟨_, h⟩
  · have : c.val.toNat < 55296 := h
    omega
  · exact h

theorem utf8Decode_nil (fuel : Nat) : utf8Decode fuel [] = [] := by
  cases fuel <;> rfl

/-- The bytes of a string are read back by `utf8Decode` as its code points. -/
theorem utf8Decode_chars (cs : List Char) (fuel : Nat) (h : cs.length ≤ fuel) :
    utf8Decode fuel (cs.flatMap fun c => utf8Encode c.toNat) = cs.map fun c => c.toNat := by
  induction cs generalizing fuel with
  | nil => simp [utf8Decode_nil]
  | cons c cs ih =>
    obtain ⟨f, rfl⟩ : ∃ f, fuel = f + 1 := ⟨fuel - 1, by simp only [List.length_cons] at h; omega⟩
    simp only [List.flatMap_cons, List.map_cons]
    rw [utf8Decode_encode _ (Char_toNat_lt c), ih f (by simp only [List.length_cons] at h; omega)]

theorem flatMap_utf8_length (cs : List Char) :
    cs.length ≤ (cs.flatMap fun c => utf8Encode c.toNat).length := by
  induction cs with
  | nil => simp
  | cons c cs ih =>
    have := List.length_pos.mpr (utf8Encode_ne_nil c.toNat)
    simp only [List.flatMap_cons, List.length_append, List.length_cons]
    omega

theorem String_mk_ofNat_toNat (cs : List Char) :
    String.mk ((cs.map fun c => c.toNat).map Char.ofNat) = String.mk cs := by
  congr 1
  rw [List.map_map]
  conv_rhs => rw [← List.map_id cs]
  apply List.map_congr_left
  intro c _
  simp [Char.ofNat_toNat]

theorem readStringBody_quote (f : Nat) (cs acc : Bytes) :
    readStringBody (f + 1) (34 :: cs) acc = some (acc, cs) := by
  simp [readStringBody]

theorem readStringBody_raw (f c : Nat) (cs acc : Bytes) (h1 : c ≠ 34) (h2 : ¬ c < 32)
    (h3 : c ≠ 92) :
    readStringBody (f + 1) (c :: cs) acc = readStringBody f cs (acc ++ [c]) := by
  simp [readStringBody, h1, h2, h3]

/-- One round of `readStringBody` over an escape of two bytes. -/
theorem readStringBody_escape (f e x : Nat) (es acc : Bytes)
    (h : (e = 34 ∧ x = 34) ∨ (e = 92 ∧ x = 92) ∨ (e = 98 ∧ x = 8) ∨ (e = 102 ∧ x = 12) ∨
      (e = 110 ∧ x = 10) ∨ (e = 114 ∧ x = 13) ∨ (e = 116 ∧ x = 9)) :
    readStringBody (f + 1) (92 :: e :: es) acc = readStringBody f es (acc ++ [x]) := by
  rcases h with ⟨rfl, rfl⟩ | ⟨rfl, rfl⟩ | ⟨rfl, rfl⟩ | ⟨rfl, rfl⟩ | ⟨rfl, rfl⟩ | ⟨rfl, rfl⟩ |
    ⟨rfl, rfl⟩ <;> simp [readStringBody]

/-- One round of `readStringBody` over an escape of four hexadecimal digits. -/
theorem readStringBody_escape_u (f a b c d va vb vc vd : Nat) (es acc : Bytes)
    (ha : hexValue a = some va) (hb : hexValue b = some vb) (hc : hexValue c = some vc)
    (hd : hexValue d = some vd) :
    readStringBody (f + 1) (92 :: 117 :: a :: b :: c :: d :: es) acc
      = readStringBody f es (acc ++ utf8Encode (va * 4096 + vb * 256 + vc * 16 + vd)) := by
  simp [readStringBody, ha, hb, hc, hd]

theorem hexValue_hexDigit (d : Nat) (h : d < 16) : hexValue (hexDigit d).toNat = some d := by
  interval_cases d <;> rfl

theorem hex4_eq (n : Nat) :
    hex4 n = [(hexDigit (n / 4096 % 16)).toNat, (hexDigit (n / 256 % 16)).toNat,
      (hexDigit (n / 16 % 16)).toNat, (hexDigit (n % 16)).toNat] := rfl

/-- One code point written by `jsonEscape` is read by `readStringBody` as its UTF-8 bytes. -/
theorem readStringBody_char (n : Nat) (hn : n < 1114112) (fuel : Nat) (rest acc : Bytes)
    (hf : (jsonEscape n).length ≤ fuel) :
    ∃ f, fuel - (jsonEscape n).length ≤ f ∧
      readStringBody fuel (jsonEscape n ++ rest) acc
        = readStringBody f rest (acc ++ utf8Encode n) := by
  have two : ∀ e : Nat, n < 128 → jsonEscape n = [92, e] →
      ((e = 34 ∧ n = 34) ∨ (e = 92 ∧ n = 92) ∨ (e = 98 ∧ n = 8) ∨ (e = 102 ∧ n = 12) ∨
        (e = 110 ∧ n = 10) ∨ (e = 114 ∧ n = 13) ∨ (e = 116 ∧ n = 9)) →
      ∃ f, fuel - (jsonEscape n).length ≤ f ∧
        readStringBody fuel (jsonEscape n ++ rest) acc
          = readStringBody f rest (acc ++ utf8Encode n) := by
    intro e hlt he hcase
    rw [he] at hf ⊢
    obtain ⟨f, rfl⟩ : ∃ f, fuel = f + 1 := ⟨fuel - 1, by simp at hf; omega⟩
    refine ⟨f, by simp, ?_⟩
    have hu : utf8Encode n = [n] := by simp [utf8Encode, hlt]
    rw [hu]
    simp only [List.cons_append, List.nil_append]
    exact readStringBody_escape f e n rest acc hcase
  by_cases c1 : n = 34
  · exact two 34 (by omega) (by simp [jsonEscape, c1]) (by omega)
  by_cases c2 : n = 92
  · exact two 92 (by omega) (by simp [jsonEscape, c2]) (by omega)
  by_cases c3 : n = 10
  · exact two 110 (by omega) (by simp [jsonEscape, c3]) (by omega)
  by_cases c4 : n = 13
  · exact two 114 (by omega) (by simp [jsonEscape, c4]) (by omega)
  by_cases c5 : n = 9
  · exact two 116 (by omega) (by simp [jsonEscape, c5]) (by omega)
  by_cases c6 : n = 8
  · exact two 98 (by omega) (by simp [jsonEscape, c6]) (by omega)
  by_cases c7 : n = 12
  · exact two 102 (by omega) (by simp [jsonEscape, c7]) (by omega)
  by_cases c8 : n < 32 ∨ n = 60 ∨ n = 62 ∨ n = 38 ∨ n = 0x2028 ∨ n = 0x2029
  · have he : jsonEscape n = 92 :: 117 :: hex4 n := by
      simp only [jsonEscape, c1, c2, c3, c4, c5, c6, c7, c8, if_false, if_true]
      rfl
    have hlt : n < 65536 := by omega
    rw [he] at hf ⊢
    obtain ⟨f, rfl⟩ : ∃ f, fuel = f + 1 := ⟨fuel - 1, by simp at hf; omega⟩
    refine ⟨f, by simp, ?_⟩
    rw [hex4_eq]
    simp only [List.cons_append, List.nil_append]
    rw [readStringBody_escape_u f _ _ _ _ _ _ _ _ rest acc
      (hexValue_hexDigit _ (Nat.mod_lt _ (by decide)))
      (hexValue_hexDigit _ (Nat.mod_lt _ (by decide)))
      (hexValue_hexDigit _ (Nat.mod_lt _ (by decide)))
      (hexValue_hexDigit _ (Nat.mod_lt _ (by decide)))]
    have hv : n / 4096 % 16 * 4096 + n / 256 % 16 * 256 + n / 16 % 16 * 16 + n % 16 = n := by
      omega
    rw [hv]
  · have he : jsonEscape n = utf8Encode n := by
      simp only [jsonEscape, c1, c2, c3, c4, c5, c6, c7, c8, if_false]
    have h32 : ¬ n < 32 := fun h => c8 (Or.inl h)
    rw [he] at hf ⊢
    by_cases h1 : n < 128
    · have hu : utf8Encode n = [n] := by simp [utf8Encode, h1]
      rw [hu] at hf ⊢
      obtain ⟨f, rfl⟩ : ∃ f, fuel = f + 1 := ⟨fuel - 1, by simp at hf; omega⟩
      refine ⟨f, by simp, ?_⟩
      simp only [List.cons_append, List.nil_append]
      exact readStringBody_raw f n rest acc c1 h32 c2
    · by_cases h2 : n < 2048
      · have hu : utf8Encode n = [192 + n / 64, 128 + n % 64] := by simp [utf8Encode, h1, h2]
        rw [hu] at hf ⊢
        obtain ⟨f, rfl⟩ : ∃ f, fuel = f + 2 := ⟨fuel - 2, by simp at hf; omega⟩
        refine ⟨f, by simp, ?_⟩
        simp only [List.cons_append, List.nil_append]
        rw [readStringBody_raw (f + 1) _ _ _ (by omega) (by omega) (by omega),
          readStringBody_raw f _ _ _ (by omega) (by omega) (by omega)]
        simp
      · by_cases h3 : n < 65536
        · have hu : utf8Encode n = [224 + n / 4096, 128 + n / 64 % 64, 128 + n % 64] := by
            simp [utf8Encode, h1, h2, h3]
          rw [hu] at hf ⊢
          obtain ⟨f, rfl⟩ : ∃ f, fuel = f + 3 := ⟨fuel - 3, by simp at hf; omega⟩
          refine ⟨f, by simp, ?_⟩
          simp only [List.cons_append, List.nil_append]
          rw [readStringBody_raw (f + 2) _ _ _ (by omega) (by omega) (by omega),
            readStringBody_raw (f + 1) _ _ _ (by omega) (by omega) (by omega),
            readStringBody_raw f _ _ _ (by omega) (by omega) (by omega)]
          simp
        · have hu : utf8Encode n
              = [240 + n / 262144, 128 + n / 4096 % 64, 128 + n / 64 % 64, 128 + n % 64] := by
            simp [utf8Encode, h1, h2, h3]
          rw [hu] at hf ⊢
          obtain ⟨f, rfl⟩ : ∃ f, fuel = f + 4 := ⟨fuel - 4, by simp at hf; omega⟩
          refine ⟨f, by simp, ?_⟩
          simp only [List.cons_append, List.nil_append]
          rw [readStringBody_raw (f + 3) _ _ _ (by omega) (by omega) (by omega),
            readStringBody_raw (f + 2) _ _ _ (by omega) (by omega) (by omega),
            readStringBody_raw (f + 1) _ _ _ (by omega) (by omega) (by omega),
            readStringBody_raw f _ _ _ (by omega) (by omega) (by omega)]
          simp

theorem jsonEscape_ne_nil (n : Nat) : jsonEscape n ≠ [] := by
  unfold jsonEscape
  split_ifs <;> first | exact utf8Encode_ne_nil n | simp

/-- The text of the characters of a string, up to the closing quote, is read by
`readStringBody` as the bytes of the string. -/
theorem readStringBody_chars (cs : List Char) : ∀ (fuel : Nat) (rest acc : Bytes),
    (cs.flatMap fun c => jsonEscape c.toNat).length + 1 ≤ fuel →
    readStringBody fuel ((cs.flatMap fun c => jsonEscape c.toNat) ++ 34 :: rest) acc
      = some (acc ++ cs.flatMap (fun c => utf8Encode c.toNat), rest) := by
  induction cs with
  | nil =>
    intro fuel rest acc hf
    obtain ⟨f, rfl⟩ : ∃ f, fuel = f + 1 := ⟨fuel - 1, by omega⟩
    simp [readStringBody_quote]
  | cons c cs ih =>
    intro fuel rest acc hf
    simp only [List.flatMap_cons, List.length_append] at hf
    obtain ⟨f, hf1, hf2⟩ := readStringBody_char c.toNat (Char_toNat_lt c) fuel
      ((cs.flatMap fun c => jsonEscape c.toNat) ++ 34 :: rest) acc (by omega)
    simp only [List.flatMap_cons, List.append_assoc]
    rw [hf2, ih f rest _ (by omega), List.append_assoc]

/-- A string written by `jsonString` is read back by `readString`. -/
theorem readString_jsonString (s : String) (rest : Bytes) :
    readString (jsonString s ++ rest) = some (s, rest) := by
  have htext : jsonString s ++ rest
      = 34 :: ((s.data.flatMap fun c => jsonEscape c.toNat) ++ 34 :: rest) := by
    simp [jsonString]
  rw [htext]
  simp only [readString, if_true]
  rw [readStringBody_chars s.data _ rest [] (by simp)]
  simp only [Option.map_some', List.nil_append]
  rw [utf8Decode_chars s.data _ (flatMap_utf8_length s.data), String_mk_ofNat_toNat]

/-- A payload value that `json.Unmarshal` reads back as it was: nil, a `bool`, a `string`, or a
`float64` that holds an integer of magnitude at most `2 ^ 53`. -/
def NativeValue : GoValue → Prop
  | .null => True
  | .bool _ => True
  | .int _ => False
  | .float64 n => n.natAbs ≤ 9007199254740992
  | .str _ => True
  | .unsupported => False

instance : (v : GoValue) → Decidable (NativeValue v)
  | .null => isTrue trivial
  | .bool _ => isTrue trivial
  | .int _ => isFalse id
  | .float64 n => inferInstanceAs (Decidable (n.natAbs ≤ 9007199254740992))
  | .str _ => isTrue trivial
  | .unsupported => isFalse id

/-- A payload that `json.Unmarshal` reads back as it was: the nil map, or a map of native
values, its entries in strictly ascending key order. -/
def NativePayload : Payload → Prop
  | none => True
  | some kvs => (kvs.map fun kv => kv.1).Chain' (fun a b => a < b) ∧ ∀ kv ∈ kvs, NativeValue kv.2

instance : (d : Payload) → Decidable (NativePayload d)
  | none => isTrue trivial
  | some kvs => inferInstanceAs (Decidable
      ((kvs.map fun (kv : String × GoValue) => kv.1).Chain' (fun a b => a < b) ∧
        ∀ kv ∈ kvs, NativeValue kv.2))

theorem stringBytes_null : stringBytes "null" = [110, 117, 108, 108] := by decide
theorem stringBytes_true : stringBytes "true" = [116, 114, 117, 101] := by decide
theorem stringBytes_false : stringBytes "false" = [102, 97, 108, 115, 101] := by decide

theorem jsonString_cons (s : String) :
    ∃ cs, jsonString s = 34 :: cs :=
  ⟨(s.data.flatMap fun c => jsonEscape c.toNat) ++ [34], by simp [jsonString]⟩

theorem jsonInt_cons (n : Int) :
    ∃ c cs, jsonInt n = c :: cs ∧ (c = 45 ∨ (48 ≤ c ∧ c ≤ 57)) := by
  cases n with
  | ofNat m =>
    obtain ⟨c, cs, htext, hc1, hc2, _⟩ := natText_spec m
    exact ⟨c, cs, by rw [show (Int.ofNat m) = (m : Int) from rfl, jsonInt_ofNat, htext],
      Or.inr ⟨hc1, hc2⟩⟩
  | negSucc m => exact ⟨45, _, jsonInt_negSucc m, Or.inl rfl⟩

theorem readString_cons_ne (c : Nat) (cs : Bytes) (h : c ≠ 34) : readString (c :: cs) = none := by
  simp [readString, h]

theorem float64Value_native (n : Int) (h : n.natAbs ≤ 9007199254740992) :
    float64Value n = .float64 n := by
  have h1 : nearestFloat64 n.natAbs = n.natAbs := by simp [nearestFloat64, h]
  have h2 : n.natAbs < 2 ^ 1024 := Nat.lt_of_le_of_lt h (by norm_num)
  simp only [float64Value, h1, h2, if_true, GoValue.float64.injEq]
  split_ifs with hneg <;> omega

/-- A native value written by `jsonValue` is read back by `readValue`, when no digit follows
it. -/
theorem readValue_native (v : GoValue) (hv : NativeValue v) (t : Bytes)
    (ht : jsonValue v = some t) (rest : Bytes)
    (hrest : ∀ d, rest.head? = some d → ¬ (48 ≤ d ∧ d ≤ 57)) :
    readValue (t ++ rest) = some (v, rest) := by
  cases v with
  | null =>
    simp only [jsonValue, Option.some.injEq] at ht
    subst ht
    simp [readValue, expect_append]
  | bool b =>
    cases b with
    | true =>
      simp only [jsonValue, Option.some.injEq] at ht
      subst ht
      have h1 : expect (stringBytes "null") (stringBytes "true" ++ rest) = none := by
        rw [stringBytes_null, stringBytes_true]
        exact expect_cons_ne _ _ _ _ (by decide)
      simp [readValue, h1, expect_append]
    | false =>
      simp only [jsonValue, Option.some.injEq] at ht
      subst ht
      have h1 : expect (stringBytes "null") (stringBytes "false" ++ rest) = none := by
        rw [stringBytes_null, stringBytes_false]
        exact expect_cons_ne _ _ _ _ (by decide)
      have h2 : expect (stringBytes "true") (stringBytes "false" ++ rest) = none := by
        rw [stringBytes_true, stringBytes_false]
        exact expect_cons_ne _ _ _ _ (by decide)
      simp [readValue, h1, h2, expect_append]
  | int n => exact absurd hv (by simp [NativeValue])
  | unsupported => exact absurd hv (by simp [NativeValue])
  | str s =>
    simp only [jsonValue, Option.some.injEq] at ht
    subst ht
    obtain ⟨cs, hcs⟩ := jsonString_cons s
    have h1 : expect (stringBytes "null") (jsonString s ++ rest) = none := by
      rw [stringBytes_null, hcs]; exact expect_cons_ne _ _ _ _ (by decide)
    have h2 : expect (stringBytes "true") (jsonString s ++ rest) = none := by
      rw [stringBytes_true, hcs]; exact expect_cons_ne _ _ _ _ (by decide)
    have h3 : expect (stringBytes "false") (jsonString s ++ rest) = none := by
      rw [stringBytes_false, hcs]; exact expect_cons_ne _ _ _ _ (by decide)
    simp only [readValue, h1, h2, h3, readString_jsonString]
  | float64 n =>
    simp only [jsonValue, Option.some.injEq] at ht
    subst ht
    obtain ⟨c, cs, hcs, hc⟩ := jsonInt_cons n
    have h1 : expect (stringBytes "null") (jsonInt n ++ rest) = none := by
      rw [stringBytes_null, hcs]; exact expect_cons_ne _ _ _ _ (by omega)
    have h2 : expect (stringBytes "true") (jsonInt n ++ rest) = none := by
      rw [stringBytes_true, hcs]; exact expect_cons_ne _ _ _ _ (by omega)
    have h3 : expect (stringBytes "false") (jsonInt n ++ rest) = none := by
      rw [stringBytes_false, hcs]; exact expect_cons_ne _ _ _ _ (by omega)
    have h4 : readString (jsonInt n ++ rest) = none := by
      rw [hcs]; exact readString_cons_ne _ _ (by omega)
    simp only [readValue, h1, h2, h3, h4, readInt_jsonInt n rest hrest, Option.map_some',
      float64Value_native n hv]

theorem sortEntries_sorted (kvs : List (String × GoValue))
    (h : (kvs.map fun kv => kv.1).Chain' (fun a b => a < b)) : sortEntries kvs = kvs := by
  induction kvs with
  | nil => rfl
  | cons kv kvs ih =>
    have hrec : sortEntries (kv :: kvs) = insertEntry kv (sortEntries kvs) := rfl
    rw [hrec, ih (by simpa using (List.chain'_cons'.mp h).2)]
    cases kvs with
    | nil => rfl
    | cons x xs =>
      have hlt : kv.1 < x.1 := by
        simp only [List.map_cons, List.chain'_cons] at h
        exact h.1
      simp [insertEntry, hlt]

/-- The text of one entry of a map. -/
def entryText (kv : String × GoValue) : Bytes :=
  jsonString kv.1 ++ [58] ++ (jsonValue kv.2).getD []

theorem jsonValue_native (v : GoValue) (h : NativeValue v) : ∃ t, jsonValue v = some t := by
  cases v with
  | null => exact ⟨_, rfl⟩
  | bool b => cases b <;> exact ⟨_, rfl⟩
  | int n => exact absurd h (by simp [NativeValue])
  | float64 n => exact ⟨_, rfl⟩
  | str s => exact ⟨_, rfl⟩
  | unsupported => exact absurd h (by simp [NativeValue])

theorem jsonEntries_native (kvs : List (String × GoValue)) (h : ∀ kv ∈ kvs, NativeValue kv.2) :
    jsonEntries kvs = some (kvs.map entryText) := by
  induction kvs with
  | nil => rfl
  | cons kv kvs ih =>
    obtain ⟨t, ht⟩ := jsonValue_native kv.2 (h kv (by simp))
    simp [jsonEntries, ht, ih (fun x hx => h x (by simp [hx])), entryText]

/-- One round of `readEntries` over the text of a native entry. -/
theorem readEntries_entry (kv : String × GoValue) (h : NativeValue kv.2) (fuel c : Nat)
    (acc : List (String × GoValue)) (tail : Bytes) (hc : c = 125 ∨ c = 44) :
    readEntries (fuel + 1) (entryText kv ++ c :: tail) acc
      = if c = 125 then some (acc ++ [kv], tail) else readEntries fuel tail (acc ++ [kv]) := by
  obtain ⟨t, ht⟩ := jsonValue_native kv.2 h
  have htext : entryText kv ++ c :: tail = jsonString kv.1 ++ ([58] ++ (t ++ c :: tail)) := by
    simp [entryText, ht]
  have hv : readValue (t ++ c :: tail) = some (kv.2, c :: tail) :=
    readValue_native kv.2 h t ht (c :: tail) (by
      intro d hd
      simp only [List.head?_cons, Option.some.injEq] at hd
      omega)
  rw [htext, readEntries]
  simp only [readString_jsonString, expect_append, hv]
  rcases hc with rfl | rfl <;> simp

theorem joinComma_cons_cons (x y : Bytes) (xs : List Bytes) :
    joinComma (x :: y :: xs) = x ++ 44 :: joinComma (y :: xs) := by
  simp [joinComma]

/-- The entries of a map written by `jsonEntries` are read back by `readEntries`. -/
theorem readEntries_native (kvs : List (String × GoValue)) (hne : kvs ≠ [])
    (h : ∀ kv ∈ kvs, NativeValue kv.2) : ∀ (fuel : Nat) (tail : Bytes)
    (acc : List (String × GoValue)), kvs.length ≤ fuel →
    readEntries fuel (joinComma (kvs.map entryText) ++ 125 :: tail) acc
      = some (acc ++ kvs, tail) := by
  induction kvs with
  | nil => exact absurd rfl hne
  | cons kv kvs ih =>
    intro fuel tail acc hf
    obtain ⟨f, rfl⟩ : ∃ f, fuel = f + 1 := ⟨fuel - 1, by simp only [List.length_cons] at hf; omega⟩
    cases kvs with
    | nil =>
      simp only [List.map_cons, List.map_nil, joinComma]
      rw [readEntries_entry kv (h kv (by simp)) f 125 acc tail (Or.inl rfl)]
      simp
    | cons x xs =>
      simp only [List.map_cons, joinComma_cons_cons, List.append_assoc, List.cons_append]
      rw [readEntries_entry kv (h kv (by simp)) f 44 acc _ (Or.inr rfl)]
      have := ih (by simp) (fun y hy => h y (by simp [hy])) f tail (acc ++ [kv])
        (by simp only [List.length_cons] at hf ⊢; omega)
      simp only [List.map_cons] at this
      simp [this]

theorem entryText_cons (kv : String × GoValue) : ∃ cs, entryText kv = 34 :: cs := by
  obtain ⟨cs, hcs⟩ := jsonString_cons kv.1
  exact ⟨cs ++ [58] ++ (jsonValue kv.2).getD [], by simp [entryText, hcs]⟩

theorem joinComma_length (texts : List Bytes) (h : ∀ t ∈ texts, t ≠ []) :
    texts.length ≤ (joinComma texts).length := by
  induction texts with
  | nil => simp [joinComma]
  | cons x xs ih =>
    have hx : 0 < x.length := List.length_pos.mpr (h x (by simp))
    cases xs with
    | nil => simp [joinComma]; omega
    | cons y ys =>
      have := ih (fun t ht => h t (by simp [ht]))
      simp only [joinComma_cons_cons, List.length_append, List.length_cons] at this ⊢
      omega

/-- A native payload written by `marshalData` is read back by `readData`. -/
theorem readData_native (d : Payload) (h : NativePayload d) (tail : Bytes) :
    ∃ t, marshalData d = some t ∧ readData (t ++ tail) = some (d, tail) := by
  cases d with
  | none =>
    exact ⟨stringBytes "null", rfl, by simp [readData, expect_append]⟩
  | some kvs =>
    obtain ⟨hsorted, hnat⟩ := h
    have ht : marshalData (some kvs) = some ([123] ++ joinComma (kvs.map entryText) ++ [125]) := by
      simp [marshalData, sortEntries_sorted kvs hsorted, jsonEntries_native kvs hnat]
    refine ⟨_, ht, ?_⟩
    cases kvs with
    | nil =>
      have h1 : expect (stringBytes "null") ([123, 125] ++ tail) = none := by
        rw [stringBytes_null]; exact expect_cons_ne _ _ _ _ (by decide)
      simp only [List.map_nil, joinComma, List.append_nil, List.singleton_append,
        List.cons_append, List.nil_append]
      have h2 : expect [123, 125] (123 :: 125 :: tail) = some tail :=
        expect_append [123, 125] tail
      simp only [List.cons_append, List.nil_append] at h1
      simp [readData, h1, h2]
    | cons kv kvs =>
      obtain ⟨cs, hcs⟩ := entryText_cons kv
      have hjoin : ∃ js, joinComma ((kv :: kvs).map entryText) = 34 :: js := by
        cases kvs with
        | nil => exact ⟨cs, by simp [joinComma, hcs]⟩
        | cons x xs => exact ⟨cs ++ 44 :: joinComma ((x :: xs).map entryText), by
            simp only [List.map_cons, joinComma_cons_cons, hcs, List.cons_append]⟩
      obtain ⟨js, hjs⟩ := hjoin
      have htext : [123] ++ joinComma ((kv :: kvs).map entryText) ++ [125] ++ tail
          = 123 :: (joinComma ((kv :: kvs).map entryText) ++ 125 :: tail) := by simp
      have h1 : expect (stringBytes "null")
          (123 :: (joinComma ((kv :: kvs).map entryText) ++ 125 :: tail)) = none := by
        rw [stringBytes_null]; exact expect_cons_ne _ _ _ _ (by decide)
      have h2 : expect [123, 125]
          (123 :: (joinComma ((kv :: kvs).map entryText) ++ 125 :: tail)) = none := by
        rw [hjs]; simp [expect, List.isPrefixOf]
      have h3 : expect [123]
          (123 :: (joinComma ((kv :: kvs).map entryText) ++ 125 :: tail))
          = some (joinComma ((kv :: kvs).map entryText) ++ 125 :: tail) :=
        expect_append [123] _
      have hlen : (kv :: kvs).length
          ≤ (joinComma ((kv :: kvs).map entryText) ++ 125 :: tail).length := by
        have := joinComma_length ((kv :: kvs).map entryText) (by
          intro t ht
          simp only [List.mem_map] at ht
          obtain ⟨e, _, rfl⟩ := ht
          obtain ⟨es, hes⟩ := entryText_cons e
          simp [hes])
        simp only [List.length_map] at this
        simp only [List.length_append]
        omega
      rw [htext]
      simp only [readData, h1, h2, h3]
      rw [readEntries_native (kv :: kvs) (by simp) hnat _ tail [] hlen]
      simp

theorem readMember_first {α : Type} (name : String) (read : Bytes → Option (α × Bytes))
    (rest : Bytes) : readMember true name read ([123] ++ jsonKey name ++ rest) = read rest := by
  simp only [readMember, if_true, expect_append]

theorem readMember_next {α : Type} (name : String) (read : Bytes → Option (α × Bytes))
    (rest : Bytes) : readMember false name read ([44] ++ jsonKey name ++ rest) = read rest := by
  have : (if false = true then [123] else [44]) = ([44] : Bytes) := rfl
  simp only [readMember, this, expect_append]

/-- The text of a transaction. -/
def txText (tx : Transaction) : Bytes := (marshalTx tx).getD []

/-- A transaction with a native payload, written by `marshalTx`, is read back by `readTx`. -/
theorem readTx_native (tx : Transaction) (h : NativePayload tx.Data) (tail : Bytes) :
    (∃ t, marshalTx tx = some t) ∧ readTx (txText tx ++ tail) = some (tx, tail) ∧
      ∃ cs, txText tx = 123 :: cs := by
  obtain ⟨d, hd, hread⟩ := readData_native tx.Data h ([125] ++ tail)
  have ht : marshalTx tx = some ([123] ++ jsonKey "tx_hash" ++ jsonString tx.TxHash ++ [44] ++
      jsonKey "timestamp" ++ jsonInt tx.Timestamp ++ [44] ++ jsonKey "data" ++ d ++ [125]) := by
    simp [marshalTx, hd]
  refine ⟨⟨_, ht⟩, ?_, ⟨jsonKey "tx_hash" ++ (jsonString tx.TxHash ++ ([44] ++ (jsonKey "timestamp" ++
    (jsonInt tx.Timestamp ++ ([44] ++ (jsonKey "data" ++ (d ++ [125]))))))), by
      simp [txText, ht]⟩⟩
  have htext : txText tx ++ tail
      = [123] ++ jsonKey "tx_hash" ++ (jsonString tx.TxHash ++
          ([44] ++ jsonKey "timestamp" ++ (jsonInt tx.Timestamp ++
            ([44] ++ jsonKey "data" ++ (d ++ ([125] ++ tail)))))) := by
    simp only [txText, ht, Option.getD_some, List.append_assoc]
  have hint : readInt (jsonInt tx.Timestamp ++ ([44] ++ jsonKey "data" ++ (d ++ ([125] ++ tail))))
      = some (tx.Timestamp, [44] ++ jsonKey "data" ++ (d ++ ([125] ++ tail))) :=
    readInt_jsonInt _ _ (by
      intro x hx
      simp at hx
      omega)
  rw [htext]
  simp only [readTx, readMember_first, readMember_next, readString_jsonString,
    Option.bind_eq_bind, Option.some_bind, hint, hread, expect_append, Option.map_some']

theorem marshalTxs_native (txs : List Transaction) (h : ∀ tx ∈ txs, NativePayload tx.Data) :
    marshalTxs txs = some (txs.map txText) := by
  induction txs with
  | nil => rfl
  | cons tx txs ih =>
    obtain ⟨⟨t, ht⟩, _⟩ := readTx_native tx (h tx (by simp)) []
    simp [marshalTxs, ht, ih (fun x hx => h x (by simp [hx])), txText]

/-- The transactions written by `marshalTxs` are read back by `readTxs`. -/
theorem readTxs_native (txs : List Transaction) (hne : txs ≠ [])
    (h : ∀ tx ∈ txs, NativePayload tx.Data) : ∀ (fuel : Nat) (tail : Bytes)
    (acc : List Transaction), txs.length ≤ fuel →
    readTxs fuel (joinComma (txs.map txText) ++ 93 :: tail) acc = some (acc ++ txs, tail) := by
  induction txs with
  | nil => exact absurd rfl hne
  | cons tx txs ih =>
    intro fuel tail acc hf
    obtain ⟨f, rfl⟩ : ∃ f, fuel = f + 1 := ⟨fuel - 1, by simp only [List.length_cons] at hf; omega⟩
    cases txs with
    | nil =>
      simp only [List.map_cons, List.map_nil, joinComma]
      rw [readTxs, (readTx_native tx (h tx (by simp)) (93 :: tail)).2.1]
      simp
    | cons x xs =>
      simp only [List.map_cons, joinComma_cons_cons, List.append_assoc, List.cons_append]
      rw [readTxs, (readTx_native tx (h tx (by simp)) _).2.1]
      have := ih (by simp) (fun y hy => h y (by simp [hy])) f tail (acc ++ [tx])
        (by simp only [List.length_cons] at hf ⊢; omega)
      simp only [List.map_cons] at this
      simp [this]

/-- The text of the member `transactions`. -/
def txsText (txs : List Transaction) : Bytes :=
  if (txs.map txText).length = 0 then stringBytes "null"
  else [91] ++ joinComma (txs.map txText) ++ [93]

/-- The transactions of a block are read back by `readTransactions`. -/
theorem readTransactions_native (txs : List Transaction)
    (h : ∀ tx ∈ txs, NativePayload tx.Data) (tail : Bytes) :
    readTransactions (txsText txs ++ tail) = some (txs, tail) := by
  cases txs with
  | nil => simp [txsText, readTransactions, expect_append]
  | cons tx txs =>
    obtain ⟨_, _, cs, hcs⟩ := readTx_native tx (h tx (by simp)) []
    have hjoin : ∃ js, joinComma ((tx :: txs).map txText) = 123 :: js := by
      cases txs with
      | nil => exact ⟨cs, by simp [joinComma, hcs]⟩
      | cons x xs => exact ⟨cs ++ 44 :: joinComma ((x :: xs).map txText), by
          simp only [List.map_cons, joinComma_cons_cons, hcs, List.cons_append]⟩
    obtain ⟨js, hjs⟩ := hjoin
    have htext : txsText (tx :: txs) ++ tail
        = 91 :: (joinComma ((tx :: txs).map txText) ++ 93 :: tail) := by
      simp [txsText]
    have h1 : expect (stringBytes "null")
        (91 :: (joinComma ((tx :: txs).map txText) ++ 93 :: tail)) = none := by
      rw [stringBytes_null]; exact expect_cons_ne _ _ _ _ (by decide)
    have h2 : expect [91, 93]
        (91 :: (joinComma ((tx :: txs).map txText) ++ 93 :: tail)) = none := by
      rw [hjs]; simp [expect, List.isPrefixOf]
    have h3 : expect [91] (91 :: (joinComma ((tx :: txs).map txText) ++ 93 :: tail))
        = some (joinComma ((tx :: txs).map txText) ++ 93 :: tail) := expect_append [91] _
    have hlen : (tx :: txs).length
        ≤ (joinComma ((tx :: txs).map txText) ++ 93 :: tail).length := by
      have := joinComma_length ((tx :: txs).map txText) (by
        intro t ht
        simp only [List.mem_map] at ht
        obtain ⟨e, he, rfl⟩ := ht
        obtain ⟨_, _, es, hes⟩ := readTx_native e (h e he) []
        simp [hes])
      simp only [List.length_map] at this
      simp only [List.length_append]
      omega
    rw [htext]
    simp only [readTransactions, h1, h2, h3]
    rw [readTxs_native (tx :: txs) (by simp) h _ tail [] hlen]
    simp

theorem readBool_text (b : Bool) (tail : Bytes) :
    readBool (stringBytes (if b then "true" else "false") ++ tail) = some (b, tail) := by
  cases b with
  | true => simp [readBool, expect_append]
  | false =>
    have h1 : expect (stringBytes "true") (stringBytes "false" ++ tail) = none := by
      rw [stringBytes_true, stringBytes_false]; exact expect_cons_ne _ _ _ _ (by decide)
    simp [readBool, h1, expect_append]

/-- A block whose transactions have native payloads. -/
def NativeBlock (b : Block) : Prop := ∀ tx ∈ b.Transactions, NativePayload tx.Data

instance (b : Block) : Decidable (NativeBlock b) :=
  inferInstanceAs (Decidable (∀ tx ∈ b.Transactions, NativePayload tx.Data))

theorem head_comma_not_digit (a b : Bytes) :
    ∀ d, ([44] ++ a ++ b).head? = some d → ¬ (48 ≤ d ∧ d ≤ 57) := by
  intro d hd
  simp at hd
  omega

/-- A block with native payloads, written by `marshalBlock`, is read back by `readBlock`. -/
theorem readBlock_native (b : Block) (h : NativeBlock b) (tail : Bytes) :
    ∃ t, marshalBlock b = some t ∧ readBlock (t ++ tail) = some (b, tail) := by
  have ht : marshalBlock b = some ([123] ++ jsonKey "index" ++ jsonInt b.Index ++ [44] ++
      jsonKey "timestamp" ++ jsonInt b.Timestamp ++ [44] ++
      jsonKey "previous_hash" ++ jsonString b.PreviousHash ++ [44] ++
      jsonKey "merkle_root" ++ jsonString b.MerkleRoot ++ [44] ++
      jsonKey "transactions" ++ txsText b.Transactions ++ [44] ++
      jsonKey "hash" ++ jsonString b.Hash ++ [44] ++
      jsonKey "signature" ++ jsonString b.Signature ++ [44] ++
      jsonKey "signer_pubkey" ++ jsonString b.SignerPubkey ++ [44] ++
      jsonKey "locked" ++ stringBytes (if b.Locked then "true" else "false") ++ [125]) := by
    simp only [marshalBlock, marshalTxs_native b.Transactions h, Option.map_some', txsText]
  refine ⟨_, ht, ?_⟩
  have htext : [123] ++ jsonKey "index" ++ jsonInt b.Index ++ [44] ++
      jsonKey "timestamp" ++ jsonInt b.Timestamp ++ [44] ++
      jsonKey "previous_hash" ++ jsonString b.PreviousHash ++ [44] ++
      jsonKey "merkle_root" ++ jsonString b.MerkleRoot ++ [44] ++
      jsonKey "transactions" ++ txsText b.Transactions ++ [44] ++
      jsonKey "hash" ++ jsonString b.Hash ++ [44] ++
      jsonKey "signature" ++ jsonString b.Signature ++ [44] ++
      jsonKey "signer_pubkey" ++ jsonString b.SignerPubkey ++ [44] ++
      jsonKey "locked" ++ stringBytes (if b.Locked then "true" else "false") ++ [125] ++ tail
      = [123] ++ jsonKey "index" ++ (jsonInt b.Index ++
        ([44] ++ jsonKey "timestamp" ++ (jsonInt b.Timestamp ++
        ([44] ++ jsonKey "previous_hash" ++ (jsonString b.PreviousHash ++
        ([44] ++ jsonKey "merkle_root" ++ (jsonString b.MerkleRoot ++
        ([44] ++ jsonKey "transactions" ++ (txsText b.Transactions ++
        ([44] ++ jsonKey "hash" ++ (jsonString b.Hash ++
        ([44] ++ jsonKey "signature" ++ (jsonString b.Signature ++
        ([44] ++ jsonKey "signer_pubkey" ++ (jsonString b.SignerPubkey ++
        ([44] ++ jsonKey "locked" ++ (stringBytes (if b.Locked then "true" else "false") ++
        ([125] ++ tail)))))))))))))))))) := by
    simp only [List.append_assoc]
  rw [htext]
  simp only [readBlock, readMember_first, readMember_next, readString_jsonString,
    readInt_jsonInt _ _ (head_comma_not_digit _ _), readTransactions_native _ h,
    readBool_text, Option.bind_eq_bind, Option.some_bind, expect_append, Option.map_some']

/-- A block with native payloads is read back from its text as it was, by every library
whose JSON half is `marshalBlock` and `unmarshalBlock`. -/
theorem reread_native (L : Lib) (hm : L.jsonMarshalBlock = marshalBlock)
    (hu : L.jsonUnmarshalBlock = unmarshalBlock) (b : Block) (h : NativeBlock b) :
    reread L b = b := by
  obtain ⟨t, ht, hread⟩ := readBlock_native b h []
  rw [List.append_nil] at hread
  simp only [reread, hm, hu, ht, Option.getD_some, unmarshalBlock, hread]

/-- The blocks of a run on native payloads have native payloads. -/
theorem runCalls_native (L : Lib) (calls : List Call) (core : AurumCore) (disk : Disk)
    (hcore : ∀ b ∈ core.blocks, NativeBlock b) (hcalls : ∀ c ∈ calls, NativePayload c.data) :
    ∀ b ∈ (runCalls L core disk calls).1.blocks, NativeBlock b := by
  induction calls generalizing core disk with
  | nil => simpa [runCalls] using hcore
  | cons c cs ih =>
    simp only [runCalls]
    apply ih
    · rcases AppendBlock_blocks L core disk c with h | h
      · rw [h]; exact hcore
      · rw [h]
        intro b hb
        simp only [List.mem_append, List.mem_singleton] at hb
        rcases hb with hb | hb
        · exact hcore b hb
        · subst hb
          intro tx htx
          simp only [buildBlock_Transactions, List.mem_singleton] at htx
          subst htx
          exact hcalls c (by simp)
    · exact fun x hx => hcalls x (by simp [hx])

/-- For every library, a new engine on the file of a run without torn writes holds the blocks
read back from the records of the chain in memory. -/
theorem reload_rereads (L : Lib) (filepath : String) (privKey : Bytes) (disk : Disk)
    (calls : List Call) (hdisk : disk = none ∨ disk = some [])
    (hcalls : ∀ c ∈ calls, NoTornWrite c.disk)
    (hfit : ∀ b ∈ (runCalls L (emptyCore filepath privKey (L.edPublic privKey)) disk calls).1.blocks,
      FitsRead L b) :
    NewAurumCore L filepath privKey
        (runCalls L (emptyCore filepath privKey (L.edPublic privKey)) disk calls).2
      = .ok { blocks := (runCalls L (emptyCore filepath privKey (L.edPublic privKey)) disk
                calls).1.blocks.map (reread L),
              filepath := filepath, privateKey := privKey, publicKey := L.edPublic privKey } ∧
    (runCalls L (emptyCore filepath privKey (L.edPublic privKey)) disk calls).1
      = { blocks := (runCalls L (emptyCore filepath privKey (L.edPublic privKey)) disk
                calls).1.blocks,
          filepath := filepath, privateKey := privKey, publicKey := L.edPublic privKey } := by
  have h0 : disk.getD [] = recordsOf L (emptyCore filepath privKey (L.edPublic privKey)).blocks := by
    rcases hdisk with h | h <;> simp [h, emptyCore, recordsOf]
  obtain ⟨g0, g1, g2, g3⟩ := runCalls_recordsOf L calls _ disk hcalls h0
  refine ⟨NewAurumCore_recordsOf L filepath privKey _ _ hfit g0, ?_⟩
  cases hfin : (runCalls L (emptyCore filepath privKey (L.edPublic privKey)) disk calls).1
  rw [hfin] at g1 g2 g3
  simp_all [emptyCore]

/-! ## Claims -/

/-- C1. Starting from an engine with an empty chain, after any sequence of `AppendBlock`
calls, each succeeding or failing at persistence, the first block of a non-empty chain has
the 64-character all-zero string as `PreviousHash`, and every block at a position from 1 on
has the `Hash` of the block before it as `PreviousHash`. -/
theorem chain_linkage (L : Lib) (filepath : String) (privKey pubKey : Bytes) (disk : Disk)
    (calls : List Call) :
    genesisHash.data = List.replicate 64 (Char.ofNat 48) ∧
    (0 < (runCalls L (emptyCore filepath privKey pubKey) disk calls).1.blocks.length →
      (((runCalls L (emptyCore filepath privKey pubKey) disk calls).1.blocks).getD 0
        Block.zero).PreviousHash = genesisHash) ∧
    ∀ i, 1 ≤ i → i < (runCalls L (emptyCore filepath privKey pubKey) disk calls).1.blocks.length →
      (((runCalls L (emptyCore filepath privKey pubKey) disk calls).1.blocks).getD i
        Block.zero).PreviousHash =
      (((runCalls L (emptyCore filepath privKey pubKey) disk calls).1.blocks).getD (i - 1)
        Block.zero).Hash := by
  refine ⟨by decide, ?_⟩
  exact runCalls_induction L Linked (Linked_append L) calls _ disk
    ⟨by simp [emptyCore], by simp [emptyCore]⟩

/-- Witness of C1: a run of three calls, the second of which fails at persistence. -/
theorem chain_linkage_witness :
    0 < (runCalls goLib demoCore none [demoCall, tornCall, demoCall]).1.blocks.length ∧
    (((runCalls goLib demoCore none [demoCall, tornCall, demoCall]).1.blocks).getD 0
      Block.zero).PreviousHash = genesisHash ∧
    1 < (runCalls goLib demoCore none [demoCall, tornCall, demoCall]).1.blocks.length ∧
    (((runCalls goLib demoCore none [demoCall, tornCall, demoCall]).1.blocks).getD 1
      Block.zero).PreviousHash =
    (((runCalls goLib demoCore none [demoCall, tornCall, demoCall]).1.blocks).getD (1 - 1)
      Block.zero).Hash :=
  ⟨by decide!,
   (chain_linkage goLib "ledger.dat" demoKey (demoPublic demoKey) none
      [demoCall, tornCall, demoCall]).2.1 (by decide!),
   by decide!,
   (chain_linkage goLib "ledger.dat" demoKey (demoPublic demoKey) none
      [demoCall, tornCall, demoCall]).2.2 1 (by decide) (by decide!)⟩

/-- C4. If `writeToDisk` returns an error, `AppendBlock` returns that error and no block, and
the engine is what it was before the call: the chain has the same length and the same
elements, so `GetLatest` and `GetChainStatus` answer as before. -/
theorem append_failure_leaves_chain (L : Lib) (core : AurumCore) (disk : Disk) (c : Call)
    (err : GoError)
    (h : (writeToDisk L disk (buildBlock L core c) c.disk).1 = some err) :
    (AppendBlock L core disk c).result = .error err ∧
    (AppendBlock L core disk c).core = core ∧
    (AppendBlock L core disk c).core.blocks.length = core.blocks.length ∧
    (AppendBlock L core disk c).core.blocks = core.blocks ∧
    GetLatest (AppendBlock L core disk c).core = GetLatest core ∧
    GetChainStatus (AppendBlock L core disk c).core = GetChainStatus core := by
  have key : (AppendBlock L core disk c).result = .error err ∧
      (AppendBlock L core disk c).core = core := by
    unfold AppendBlock
    cases hd : c.disk <;> simp_all [writeToDisk]
  obtain ⟨h1, h2⟩ := key
  simp [h1, h2]

/-- Witness of C4: a write that stops after ten bytes. -/
theorem append_failure_leaves_chain_witness :
    (AppendBlock goLib demoCore none tornCall).result = .error "no space left on device" ∧
    (AppendBlock goLib demoCore none tornCall).core = demoCore ∧
    (AppendBlock goLib demoCore none tornCall).core.blocks.length = demoCore.blocks.length ∧
    (AppendBlock goLib demoCore none tornCall).core.blocks = demoCore.blocks ∧
    GetLatest (AppendBlock goLib demoCore none tornCall).core = GetLatest demoCore ∧
    GetChainStatus (AppendBlock goLib demoCore none tornCall).core = GetChainStatus demoCore :=
  append_failure_leaves_chain goLib demoCore none tornCall "no space left on device" (by rfl)

/-- C5. Starting from an engine with an empty chain, after any sequence of `AppendBlock`
calls the block at position `i` has `Index` `i`; the next successful append returns a block
whose `Index` is the number of blocks appended before it; three appends in a row return the
heights 0, 1 and 2. Positions are below `2 ^ 63`, the bound of a Go slice length. -/
theorem height_is_position (L : Lib) (filepath : String) (privKey pubKey : Bytes) (disk : Disk)
    (calls : List Call) :
    (∀ i, i < (runCalls L (emptyCore filepath privKey pubKey) disk calls).1.blocks.length →
      i < 2 ^ 63 →
      (((runCalls L (emptyCore filepath privKey pubKey) disk calls).1.blocks).getD i
        Block.zero).Index = (i : Int)) ∧
    (∀ (c : Call) (b : Block),
      (AppendBlock L (runCalls L (emptyCore filepath privKey pubKey) disk calls).1
        (runCalls L (emptyCore filepath privKey pubKey) disk calls).2 c).result = .ok b →
      (runCalls L (emptyCore filepath privKey pubKey) disk calls).1.blocks.length < 2 ^ 63 →
      b.Index = ((runCalls L (emptyCore filepath privKey pubKey) disk calls).1.blocks.length : Int)) ∧
    (∀ c0 c1 c2 : Call, c0.disk = .complete → c1.disk = .complete → c2.disk = .complete →
      ((runResults L (emptyCore filepath privKey pubKey) disk [c0, c1, c2]).map
        fun r => r.map fun b => b.Index) = [.ok 0, .ok 1, .ok 2]) := by
  refine ⟨Heights_runCalls L filepath privKey pubKey disk calls, ?_, ?_⟩
  · intro c b hb hlen
    rw [AppendBlock_ok L _ _ c b hb]
    exact buildBlock_Index_of_Heights L _ c (Heights_runCalls L filepath privKey pubKey disk calls)
      hlen
  · intro c0 c1 c2 h0 h1 h2
    simp only [runResults, AppendBlock_complete, h0, h1, h2]
    simp [emptyCore, buildBlock_Index, lastBlock, Except.map]
    decide

/-- Witness of C5: the three appends of the scenario. -/
theorem height_is_position_witness :
    ((((runCalls goLib demoCore none [demoCall, demoCall, demoCall]).1.blocks).getD 2
        Block.zero).Index = 2) ∧
    (buildBlock goLib (runCalls goLib demoCore none [demoCall, demoCall, demoCall]).1
        demoCall).Index = 3 ∧
    ((runResults goLib demoCore none [demoCall, demoCall, demoCall]).map
        fun r => r.map fun b => b.Index) = [.ok 0, .ok 1, .ok 2] :=
  ⟨(height_is_position goLib "ledger.dat" demoKey (demoPublic demoKey) none
      [demoCall, demoCall, demoCall]).1 2 (by decide!) (by decide),
   (height_is_position goLib "ledger.dat" demoKey (demoPublic demoKey) none
      [demoCall, demoCall, demoCall]).2.1 demoCall _
      (AppendBlock_complete_result _ _ _ _ rfl) (by decide!),
   (height_is_position goLib "ledger.dat" demoKey (demoPublic demoKey) none
      [demoCall, demoCall, demoCall]).2.2 demoCall demoCall demoCall rfl rfl rfl⟩

/-- C6. For every block returned by a successful `AppendBlock`, whatever the engine, the
payload, the key and the clock, `HashBlock` recomputes the stored `Hash`; `HashBlock` is the
lowercase hexadecimal SHA-256 of the decimal `Index`, the decimal `Timestamp`, `PreviousHash`
and `MerkleRoot`, concatenated without separators. -/
theorem digest_recomputes (L : Lib) (core : AurumCore) (disk : Disk) (c : Call) (b : Block)
    (h : (AppendBlock L core disk c).result = .ok b) :
    HashBlock L b = b.Hash ∧
    HashBlock L b = hexEncode (L.sha256 (stringBytes
      (toString b.Index ++ toString b.Timestamp ++ b.PreviousHash ++ b.MerkleRoot))) ∧
    (∀ ch ∈ (HashBlock L b).data, ch ∈ "0123456789abcdef".data) := by
  rw [AppendBlock_ok L core disk c b h]
  exact ⟨rfl, rfl, hexEncode_lowercase _⟩

/-- Witness of C6: the first append of the scenario. -/
theorem digest_recomputes_witness :
    HashBlock goLib (buildBlock goLib demoCore demoCall) = (buildBlock goLib demoCore demoCall).Hash ∧
    HashBlock goLib (buildBlock goLib demoCore demoCall) = hexEncode (goLib.sha256 (stringBytes
      (toString (buildBlock goLib demoCore demoCall).Index ++
        toString (buildBlock goLib demoCore demoCall).Timestamp ++
        (buildBlock goLib demoCore demoCall).PreviousHash ++
        (buildBlock goLib demoCore demoCall).MerkleRoot))) ∧
    (∀ ch ∈ (HashBlock goLib (buildBlock goLib demoCore demoCall)).data,
      ch ∈ "0123456789abcdef".data) :=
  digest_recomputes goLib demoCore none demoCall (buildBlock goLib demoCore demoCall)
    (AppendBlock_complete_result _ _ _ _ rfl)

/-- C7. For every list of transactions `ComputeMerkleRoot` returns the odd-carry reduction of
their digests as the specification words it: the hexadecimal SHA-256 of the string "empty" for
the empty list, and otherwise the single element reached by replacing the level by its next
level until one element remains. Its loops end: the inner loop has produced the next level
after half as many rounds as the level is long, the outer loop has reached the root after as
many rounds as there are transactions, and further rounds change nothing. For three digests
the root is the hash of the hash of the first two, followed by the third. -/
theorem merkle_root_odd_carry (L : Lib) (txs : List Transaction) :
    specMerkleRoot (sha256Hex L) (txs.map fun tx => tx.TxHash) = some (ComputeMerkleRoot L txs) ∧
    ComputeMerkleRoot L [] = hexEncode (L.sha256 (stringBytes "empty")) ∧
    (∀ (level : List String) (fuel : Nat), level.length ≤ 2 * fuel →
      nextLevelLoop L level fuel 0 [] = specNextLevel (sha256Hex L) level) ∧
    (∀ fuel, txs ≠ [] → txs.length ≤ fuel →
      merkleLoop L fuel (txs.map fun tx => tx.TxHash) = [ComputeMerkleRoot L txs]) ∧
    (∀ d1 d2 d3 : String,
      ComputeMerkleRoot L [txOf d1, txOf d2, txOf d3]
        = sha256Hex L (sha256Hex L (d1 ++ d2) ++ d3) ∧
      specNextLevel (sha256Hex L) [d1, d2, d3] = [sha256Hex L (d1 ++ d2), d3]) := by
  refine ⟨?_, rfl, ?_, ?_, ?_⟩
  · by_cases hne : txs = []
    · subst hne; rfl
    · have hlen : txs.length ≠ 0 := fun h => hne (List.length_eq_zero.mp h)
      simp only [specMerkleRoot, List.length_map, hlen, if_false]
      exact (ComputeMerkleRoot_eq_specRoot L txs hne).1
  · intro level fuel hf
    simpa using nextLevelLoop_eq L fuel [] level [] hf
  · intro fuel hne hf
    exact (ComputeMerkleRoot_eq_specRoot L txs hne).2 fuel hf
  · intro d1 d2 d3
    exact ⟨rfl, rfl⟩

/-- Witness of C7: three transactions, and loops run for more rounds than needed. -/
theorem merkle_root_odd_carry_witness :
    nextLevelLoop goLib ["aa", "bb", "cc"] 5 0 [] = specNextLevel (sha256Hex goLib) ["aa", "bb", "cc"] ∧
    merkleLoop goLib 7 ([txOf "aa", txOf "bb", txOf "cc"].map fun tx => tx.TxHash)
      = [ComputeMerkleRoot goLib [txOf "aa", txOf "bb", txOf "cc"]] :=
  ⟨(merkle_root_odd_carry goLib [txOf "aa", txOf "bb", txOf "cc"]).2.2.1 ["aa", "bb", "cc"] 5
      (by decide),
   (merkle_root_odd_carry goLib [txOf "aa", txOf "bb", txOf "cc"]).2.2.2.1 7 (by simp)
      (by decide)⟩

/-- C8. `ComputeMerkleRoot` of a single transaction is its digest, unhashed; of two
transactions it is the hexadecimal SHA-256 of the two digests concatenated; so every block
`AppendBlock` returns has the `TxHash` of its single transaction as `MerkleRoot`. -/
theorem merkle_root_small (L : Lib) :
    (∀ tx : Transaction, ComputeMerkleRoot L [tx] = tx.TxHash) ∧
    (∀ t1 t2 : Transaction, ComputeMerkleRoot L [t1, t2]
      = hexEncode (L.sha256 (stringBytes (t1.TxHash ++ t2.TxHash)))) ∧
    (∀ (core : AurumCore) (disk : Disk) (c : Call) (b : Block),
      (AppendBlock L core disk c).result = .ok b →
      ∃ tx, b.Transactions = [tx] ∧ b.MerkleRoot = tx.TxHash) := by
  refine ⟨fun _ => rfl, fun _ _ => rfl, ?_⟩
  intro core disk c b h
  rw [AppendBlock_ok L core disk c b h]
  exact ⟨_, rfl, rfl⟩

/-- Witness of C8: the first append of the scenario. -/
theorem merkle_root_small_witness :
    ∃ tx, (buildBlock goLib demoCore demoCall).Transactions = [tx] ∧
      (buildBlock goLib demoCore demoCall).MerkleRoot = tx.TxHash :=
  (merkle_root_small goLib).2.2 demoCore none demoCall _
    (AppendBlock_complete_result _ _ _ _ rfl)

/-- C2, as the code has it. After a run of `AppendBlock` calls on an engine whose ledger file
was absent or empty, no call of which left a part of a record in the file, and every block of
which has a JSON text of at most `maxRW` bytes, what one `f.Read` returns, a new engine on
the same file holds at every position the block `json.Unmarshal` reads from the text
`json.Marshal` wrote for the block in memory, whatever the libraries. With `encoding/json` as
`marshalBlock` and `unmarshalBlock` have it, whatever the hash and the signature, and with
payloads that are the nil map or maps of nil, `bool`, `string` (valid UTF-8) and `float64`
values, a `float64` holding an integer of magnitude at most `2 ^ 53`, the new engine holds
the chain in memory itself, every field of every block. -/
theorem reload_reconstructs (L : Lib) (filepath : String) (privKey : Bytes) (disk : Disk)
    (calls : List Call) (hdisk : disk = none ∨ disk = some [])
    (hcalls : ∀ c ∈ calls, NoTornWrite c.disk)
    (hfit : ∀ b ∈ (runCalls L (emptyCore filepath privKey (L.edPublic privKey)) disk calls).1.blocks,
      FitsRead L b) :
    NewAurumCore L filepath privKey
        (runCalls L (emptyCore filepath privKey (L.edPublic privKey)) disk calls).2
      = .ok { blocks := (runCalls L (emptyCore filepath privKey (L.edPublic privKey)) disk
                calls).1.blocks.map (reread L),
              filepath := filepath, privateKey := privKey, publicKey := L.edPublic privKey } ∧
    (L.jsonMarshalBlock = marshalBlock → L.jsonUnmarshalBlock = unmarshalBlock →
      (∀ c ∈ calls, NativePayload c.data) →
      NewAurumCore L filepath privKey
          (runCalls L (emptyCore filepath privKey (L.edPublic privKey)) disk calls).2
        = .ok (runCalls L (emptyCore filepath privKey (L.edPublic privKey)) disk calls).1) := by
  obtain ⟨h1, h2⟩ := reload_rereads L filepath privKey disk calls hdisk hcalls hfit
  refine ⟨h1, ?_⟩
  intro hm hu hnative
  have hall : ∀ b ∈ (runCalls L (emptyCore filepath privKey (L.edPublic privKey)) disk
      calls).1.blocks, reread L b = b := fun b hb =>
    reread_native L hm hu b (runCalls_native L calls _ disk (by simp [emptyCore]) hnative b hb)
  rw [h1, List.map_congr_left hall, List.map_id']
  exact congrArg Except.ok h2.symm

/-- Witness of C2, as the code has it: an append of a payload whose price is a `float64`, a
call whose file could not be opened, and an append of a payload with a value of each native
kind. -/
theorem reload_reconstructs_witness :
    NewAurumCore goLib "ledger.dat" demoKey
        (runCalls goLib (emptyCore "ledger.dat" demoKey (goLib.edPublic demoKey)) none
          [demoCall, refusedCall, nativeCall]).2
      = .ok { blocks := (runCalls goLib (emptyCore "ledger.dat" demoKey (goLib.edPublic demoKey))
                none [demoCall, refusedCall, nativeCall]).1.blocks.map (reread goLib),
              filepath := "ledger.dat", privateKey := demoKey,
              publicKey := goLib.edPublic demoKey } ∧
    NewAurumCore goLib "ledger.dat" demoKey
        (runCalls goLib (emptyCore "ledger.dat" demoKey (goLib.edPublic demoKey)) none
          [demoCall, refusedCall, nativeCall]).2
      = .ok (runCalls goLib (emptyCore "ledger.dat" demoKey (goLib.edPublic demoKey)) none
          [demoCall, refusedCall, nativeCall]).1 :=
  ⟨(reload_reconstructs goLib "ledger.dat" demoKey none [demoCall, refusedCall, nativeCall]
      (Or.inl rfl) (by decide) (by decide!)).1,
   (reload_reconstructs goLib "ledger.dat" demoKey none [demoCall, refusedCall, nativeCall]
      (Or.inl rfl) (by decide) (by decide!)).2 rfl rfl
      (by
        intro c hc
        simp only [List.mem_cons, List.mem_singleton, List.not_mem_nil, or_false] at hc
        rcases hc with rfl | rfl | rfl
        · simp [demoCall, demoPayload, NativePayload, NativeValue]
        · simp [refusedCall, demoPayload, NativePayload, NativeValue]
        · simp [nativeCall, NativePayload, NativeValue]
          decide)⟩

/-- C2 fails on a payload that holds an `int`: the block `AppendBlock` returns holds the price
as the `int` 100, the block a new engine reads from the file holds it as a `float64`, so the
chain read is not the chain in memory. -/
theorem reload_changes_int_payload :
    (AppendBlock goLib demoCore none intCall).result = .ok (buildBlock goLib demoCore intCall) ∧
    (AppendBlock goLib demoCore none intCall).core.blocks.map
        (fun b => b.Transactions.map fun tx => tx.Data)
      = [[some [("price", .int 100)]]] ∧
    (NewAurumCore goLib "ledger.dat" demoKey (AppendBlock goLib demoCore none intCall).disk).map
        (fun core => core.blocks.map fun b => b.Transactions.map fun tx => tx.Data)
      = .ok [[some [("price", .float64 100)]]] ∧
    NewAurumCore goLib "ledger.dat" demoKey (AppendBlock goLib demoCore none intCall).disk
      ≠ .ok (AppendBlock goLib demoCore none intCall).core := by
  decide!

/-- C2 fails also on a payload `json.Marshal` rejects: the record has an empty body, which is
read back as the zero block. -/
theorem reload_loses_unserializable_payload :
    (AppendBlock goLib demoCore none badCall).result = .ok (buildBlock goLib demoCore badCall) ∧
    (AppendBlock goLib demoCore none badCall).disk = some [0, 0, 0, 0] ∧
    NewAurumCore goLib "ledger.dat" demoKey (AppendBlock goLib demoCore none badCall).disk
      = .ok { demoCore with blocks := [Block.zero] } := by
  decide!

/-- A write that stopped part-way shifts every later record: after such a write and one
complete append the chain in memory has one block, and a new engine on the file holds two
zero blocks. -/
theorem reload_after_torn_write :
    (runCalls goLib demoCore none [tornCall, demoCall]).1.blocks
      = [buildBlock goLib demoCore demoCall] ∧
    NewAurumCore goLib "ledger.dat" demoKey (runCalls goLib demoCore none [tornCall, demoCall]).2
      = .ok { demoCore with blocks := [Block.zero, Block.zero] } := by
  decide!

/-- C3 fails on a body cut off part-way: after one complete append and one write that stopped
after ten bytes, the chain in memory has one block and the file one complete record and the
first ten bytes of the next; a new engine on that file holds two blocks, the second the zero
block. -/
theorem torn_record_is_loaded :
    (runCalls goLib demoCore none [demoCall, tornCall]).1.blocks
      = [buildBlock goLib demoCore demoCall] ∧
    (runCalls goLib demoCore none [demoCall, tornCall]).2
      = some (recordBytes goLib (buildBlock goLib demoCore demoCall) ++
          (recordBytes goLib (buildBlock goLib
            (AppendBlock goLib demoCore none demoCall).core tornCall)).take 10) ∧
    NewAurumCore goLib "ledger.dat" demoKey (runCalls goLib demoCore none [demoCall, tornCall]).2
      = .ok { demoCore with blocks := [buildBlock goLib demoCore demoCall, Block.zero] } := by
  decide!

/-- For every library, a file that holds no complete record, only a length prefix of 5 and
two bytes of a body, is loaded as one block: the one read from the two bytes and three zero
bytes. -/
theorem partial_body_is_loaded (L : Lib) (core : AurumCore) :
    loadFromDisk L core (some [5, 0, 0, 0, 123, 34])
      = .ok { core with blocks := core.blocks ++ [L.jsonUnmarshalBlock [123, 34, 0, 0, 0]] } := by
  have h : getInt32LE [5, 0, 0, 0] = 5 := by decide
  simp [loadFromDisk, loadLoop, h, maxRW]

/-- C9, the failing half: on an engine with an empty chain `GetLatest` returns the zero block,
and `GetChainStatus` panics, the index being -1. -/
theorem chain_status_of_empty_chain (filepath : String) (privKey pubKey : Bytes) :
    GetLatest (emptyCore filepath privKey pubKey) = Block.zero ∧
    GetChainStatus (emptyCore filepath privKey pubKey) = .error "index out of range [-1]" := by
  exact ⟨rfl, rfl⟩

/-- C10 fails: on a payload `json.Marshal` rejects, `AppendBlock` returns no error, the chain
is not what it was and the file is not what it was. -/
theorem unserializable_payload_is_appended :
    goLib.jsonMarshalData badCall.data = none ∧
    ¬ ((∃ err, (AppendBlock goLib demoCore none badCall).result = .error err) ∨
       (AppendBlock goLib demoCore none badCall).core.blocks = demoCore.blocks ∨
       (AppendBlock goLib demoCore none badCall).disk = none) := by
  refine ⟨by decide, ?_⟩
  rw [AppendBlock_complete goLib demoCore none badCall rfl]
  simp [demoCore, emptyCore]

/-- C10, as the code has it. On a payload `json.Marshal` rejects, `AppendBlock` drops that error:
the digest of the transaction is the SHA-256 of no bytes; when the write completes, the call
returns the block, appends it to the chain and appends its record to the file, a record of
four zero bytes when `json.Marshal` rejects the block as well; the call returns an error only
when the write does not complete, and then the chain is what it was. -/
theorem unserializable_payload (L : Lib) (core : AurumCore) (disk : Disk) (c : Call)
    (h : L.jsonMarshalData c.data = none) :
    (buildBlock L core c).Transactions
      = [{ TxHash := hexEncode (L.sha256 []), Timestamp := c.txNow, Data := c.data }] ∧
    (c.disk = .complete →
      (AppendBlock L core disk c).result = .ok (buildBlock L core c) ∧
      (AppendBlock L core disk c).core.blocks = core.blocks ++ [buildBlock L core c] ∧
      (AppendBlock L core disk c).disk
        = some (disk.getD [] ++ recordBytes L (buildBlock L core c))) ∧
    (L.jsonMarshalBlock (buildBlock L core c) = none →
      recordBytes L (buildBlock L core c) = [0, 0, 0, 0]) ∧
    (∀ err, (AppendBlock L core disk c).result = .error err →
      c.disk ≠ .complete ∧ (AppendBlock L core disk c).core = core) := by
  refine ⟨by simp [buildBlock_Transactions, h], ?_, ?_, ?_⟩
  · intro hc
    simp [AppendBlock_complete L core disk c hc]
  · intro hb
    simp only [recordBytes, hb, Option.getD_none, List.length_nil, List.append_nil]
    decide
  · intro err he
    constructor
    · intro hc
      rw [AppendBlock_complete_result L core disk c hc] at he
      cases he
    · rcases AppendBlock_cases L core disk c with ⟨_, h2⟩ | ⟨h1, _⟩
      · exact h2
      · rw [h1] at he; cases he

/-- Witness of C10, as the code has it: a rejected payload and a write that completes. -/
theorem unserializable_payload_witness :
    (AppendBlock goLib demoCore none badCall).result = .ok (buildBlock goLib demoCore badCall) ∧
    (AppendBlock goLib demoCore none badCall).core.blocks
      = demoCore.blocks ++ [buildBlock goLib demoCore badCall] ∧
    (AppendBlock goLib demoCore none badCall).disk
      = some ((none : Disk).getD [] ++ recordBytes goLib (buildBlock goLib demoCore badCall)) ∧
    recordBytes goLib (buildBlock goLib demoCore badCall) = [0, 0, 0, 0] :=
  ⟨((unserializable_payload goLib demoCore none badCall (by decide)).2.1 rfl).1,
   ((unserializable_payload goLib demoCore none badCall (by decide)).2.1 rfl).2.1,
   ((unserializable_payload goLib demoCore none badCall (by decide)).2.1 rfl).2.2,
   (unserializable_payload goLib demoCore none badCall (by decide)).2.2.1 (by decide!)⟩

/-- C11. `AppendBlock` never changes or removes a stored block: the chain before the call is
a prefix of the chain after it, and the bytes of the file before the call are a prefix of its
bytes after it. A call that returns a block adds that one block to the chain and one record
to the file, the four bytes of the `int32` length of the body and then the body; the four
bytes are the length, least significant byte first, for a body shorter than `2 ^ 31` bytes.
A call that returns an error adds no block. -/
theorem append_only (L : Lib) (core : AurumCore) (disk : Disk) (c : Call) :
    core.blocks <+: (AppendBlock L core disk c).core.blocks ∧
    disk.getD [] <+: (AppendBlock L core disk c).disk.getD [] ∧
    (∀ b, (AppendBlock L core disk c).result = .ok b →
      (AppendBlock L core disk c).core.blocks = core.blocks ++ [b] ∧
      (AppendBlock L core disk c).disk
        = some (disk.getD [] ++
            (putInt32LE (wrapInt32 ((L.jsonMarshalBlock b).getD []).length)
              ++ (L.jsonMarshalBlock b).getD [])) ∧
      (putInt32LE (wrapInt32 ((L.jsonMarshalBlock b).getD []).length)).length = 4 ∧
      (((L.jsonMarshalBlock b).getD []).length < 2 ^ 31 →
        putInt32LE (wrapInt32 ((L.jsonMarshalBlock b).getD []).length)
          = [((L.jsonMarshalBlock b).getD []).length % 256,
             ((L.jsonMarshalBlock b).getD []).length / 256 % 256,
             ((L.jsonMarshalBlock b).getD []).length / 65536 % 256,
             ((L.jsonMarshalBlock b).getD []).length / 16777216 % 256] ∧
        getInt32LE (putInt32LE (wrapInt32 ((L.jsonMarshalBlock b).getD []).length))
          = (((L.jsonMarshalBlock b).getD []).length : Int))) ∧
    (∀ err, (AppendBlock L core disk c).result = .error err →
      (AppendBlock L core disk c).core.blocks = core.blocks) := by
  refine ⟨?_, AppendBlock_disk_prefix L core disk c, ?_, ?_⟩
  · rcases AppendBlock_blocks L core disk c with h | h <;> rw [h]
    exact List.prefix_append _ _
  · intro b hb
    have hc := AppendBlock_ok_complete L core disk c b hb
    have hbb := AppendBlock_ok L core disk c b hb
    rw [AppendBlock_complete L core disk c hc, ← hbb]
    exact ⟨rfl, rfl, rfl, fun hlt => ⟨putInt32LE_of_lt _ hlt, getInt32LE_putInt32LE _ hlt⟩⟩
  · intro err he
    rcases AppendBlock_cases L core disk c with ⟨_, h⟩ | ⟨h, _⟩
    · rw [h]
    · rw [h] at he; cases he

/-- Witness of C11: the first append of the scenario, and a write that stops part-way. -/
theorem append_only_witness :
    ((AppendBlock goLib demoCore none demoCall).core.blocks
        = demoCore.blocks ++ [buildBlock goLib demoCore demoCall] ∧
      (AppendBlock goLib demoCore none demoCall).disk
        = some ((none : Disk).getD [] ++
            (putInt32LE (wrapInt32
                ((goLib.jsonMarshalBlock (buildBlock goLib demoCore demoCall)).getD []).length)
              ++ (goLib.jsonMarshalBlock (buildBlock goLib demoCore demoCall)).getD []))) ∧
    getInt32LE (putInt32LE (wrapInt32
        ((goLib.jsonMarshalBlock (buildBlock goLib demoCore demoCall)).getD []).length))
      = (((goLib.jsonMarshalBlock (buildBlock goLib demoCore demoCall)).getD []).length : Int) ∧
    (AppendBlock goLib demoCore none tornCall).core.blocks = demoCore.blocks :=
  ⟨⟨((append_only goLib demoCore none demoCall).2.2.1 _
        (AppendBlock_complete_result _ _ _ _ rfl)).1,
    ((append_only goLib demoCore none demoCall).2.2.1 _
        (AppendBlock_complete_result _ _ _ _ rfl)).2.1⟩,
   (((append_only goLib demoCore none demoCall).2.2.1 _
        (AppendBlock_complete_result _ _ _ _ rfl)).2.2.2 (by decide!)).2,
   (append_only goLib demoCore none tornCall).2.2.2 "no space left on device" (by rfl)⟩

/-- C12. Right after a successful `AppendBlock`, `GetLatest` returns the block the call
returned, and `GetChainStatus` reports the number of blocks of the chain as height, one more
than before the call, and the `Hash` of that block as latest hash. After three successful
appends on an engine with an empty chain the height of the summary is 3 and the `Index` of
the latest block is 2. -/
theorem queries_follow_append (L : Lib) (core : AurumCore) (disk : Disk) (c : Call) :
    (∀ b, (AppendBlock L core disk c).result = .ok b →
      GetLatest (AppendBlock L core disk c).core = b ∧
      GetChainStatus (AppendBlock L core disk c).core
        = .ok { height := (AppendBlock L core disk c).core.blocks.length,
                latest_hash := b.Hash, integrity := "secure" } ∧
      (AppendBlock L core disk c).core.blocks.length = core.blocks.length + 1) ∧
    (∀ (filepath : String) (privKey pubKey : Bytes) (c0 c1 c2 : Call),
      c0.disk = .complete → c1.disk = .complete → c2.disk = .complete →
      (GetChainStatus (runCalls L (emptyCore filepath privKey pubKey) disk [c0, c1, c2]).1).map
          (fun st => st.height) = .ok 3 ∧
      (GetLatest (runCalls L (emptyCore filepath privKey pubKey) disk [c0, c1, c2]).1).Index
        = 2) := by
  constructor
  · intro b hb
    have hc := AppendBlock_ok_complete L core disk c b hb
    have hbb := AppendBlock_ok L core disk c b hb
    rw [AppendBlock_complete L core disk c hc, ← hbb]
    obtain ⟨h1, h2⟩ := queries_after_append core.blocks b core.filepath core.privateKey
      core.publicKey
    refine ⟨h1, ?_, by simp⟩
    rw [h2]
    simp
  · intro filepath privKey pubKey c0 c1 c2 h0 h1 h2
    simp only [runCalls, AppendBlock_complete, h0, h1, h2]
    constructor
    · rw [(queries_after_append _ _ _ _ _).2]
      simp [emptyCore, Except.map]
    · rw [(queries_after_append _ _ _ _ _).1]
      simp [emptyCore, buildBlock_Index, lastBlock]
      decide

/-- Witness of C12: the three appends of the scenario. -/
theorem queries_follow_append_witness :
    GetLatest (AppendBlock goLib demoCore none demoCall).core = buildBlock goLib demoCore demoCall ∧
    (GetChainStatus (runCalls goLib (emptyCore "ledger.dat" demoKey (demoPublic demoKey)) none
        [demoCall, demoCall, demoCall]).1).map (fun st => st.height) = .ok 3 ∧
    (GetLatest (runCalls goLib (emptyCore "ledger.dat" demoKey (demoPublic demoKey)) none
        [demoCall, demoCall, demoCall]).1).Index = 2 :=
  ⟨((queries_follow_append goLib demoCore none demoCall).1 _
      (AppendBlock_complete_result _ _ _ _ rfl)).1,
   (queries_follow_append goLib demoCore none demoCall).2 "ledger.dat" demoKey
      (demoPublic demoKey) demoCall demoCall demoCall rfl rfl rfl⟩

/-- C13. `SignBlock` writes `Signature`, the hexadecimal signature with the key of the engine
of the UTF-8 bytes of "AURUM|v1|", the decimal `Index`, "|", `PreviousHash`, "|" and
`MerkleRoot`, and `SignerPubkey`, the hexadecimal public key of the engine; it leaves every
other field as it was. `HashBlock` gives the same digest before and after signing, and the
same digest whatever `Signature`, `SignerPubkey`, `Transactions`, `Hash` and `Locked` are. -/
theorem sign_writes_two_fields (L : Lib) (core : AurumCore) (b : Block) :
    (SignBlock L core b).Signature
      = hexEncode (L.edSign core.privateKey (stringBytes
          ("AURUM|v1|" ++ toString b.Index ++ "|" ++ b.PreviousHash ++ "|" ++ b.MerkleRoot))) ∧
    (SignBlock L core b).SignerPubkey = hexEncode core.publicKey ∧
    (SignBlock L core b).Index = b.Index ∧
    (SignBlock L core b).Timestamp = b.Timestamp ∧
    (SignBlock L core b).PreviousHash = b.PreviousHash ∧
    (SignBlock L core b).MerkleRoot = b.MerkleRoot ∧
    (SignBlock L core b).Transactions = b.Transactions ∧
    (SignBlock L core b).Hash = b.Hash ∧
    (SignBlock L core b).Locked = b.Locked ∧
    HashBlock L (SignBlock L core b) = HashBlock L b ∧
    (∀ (sig pub hash : String) (txs : List Transaction) (locked : Bool),
      HashBlock L { b with Signature := sig, SignerPubkey := pub, Transactions := txs,
                           Hash := hash, Locked := locked } = HashBlock L b) :=
  ⟨rfl, rfl, rfl, rfl, rfl, rfl, rfl, rfl, rfl, rfl, fun _ _ _ _ _ => rfl⟩

/-- C14. `HashBlock` is not injective on the four fields it reads, whatever the hash function
is: the blocks with `Index` 1, `Timestamp` 23 and with `Index` 12, `Timestamp` 3, and the same
`PreviousHash` and `MerkleRoot`, give the same string "123" followed by the two digests, the
same bytes, and so the same digest. -/
theorem hash_input_collides (L : Lib) (prev root : String) :
    (blockAt 1 23 prev root).Index ≠ (blockAt 12 3 prev root).Index ∧
    (blockAt 1 23 prev root).Timestamp ≠ (blockAt 12 3 prev root).Timestamp ∧
    (blockAt 1 23 prev root).PreviousHash = (blockAt 12 3 prev root).PreviousHash ∧
    (blockAt 1 23 prev root).MerkleRoot = (blockAt 12 3 prev root).MerkleRoot ∧
    hashInput (blockAt 1 23 prev root) = "123" ++ prev ++ root ∧
    hashInput (blockAt 12 3 prev root) = "123" ++ prev ++ root ∧
    stringBytes (hashInput (blockAt 1 23 prev root))
      = stringBytes (hashInput (blockAt 12 3 prev root)) ∧
    HashBlock L (blockAt 1 23 prev root) = HashBlock L (blockAt 12 3 prev root) ∧
    ¬ (∀ b1 b2 : Block, HashBlock L b1 = HashBlock L b2 →
        b1.Index = b2.Index ∧ b1.Timestamp = b2.Timestamp ∧
        b1.PreviousHash = b2.PreviousHash ∧ b1.MerkleRoot = b2.MerkleRoot) := by
  have h1 : hashInput (blockAt 1 23 prev root) = "123" ++ prev ++ root := by
    have : toString (1 : Int) ++ toString (23 : Int) = "123" := by decide
    simp only [hashInput, blockAt, this]
  have h2 : hashInput (blockAt 12 3 prev root) = "123" ++ prev ++ root := by
    have : toString (12 : Int) ++ toString (3 : Int) = "123" := by decide
    simp only [hashInput, blockAt, this]
  have h3 : HashBlock L (blockAt 1 23 prev root) = HashBlock L (blockAt 12 3 prev root) := by
    simp only [HashBlock, h1, h2]
  refine ⟨by simp [blockAt], by simp [blockAt], rfl, rfl, h1, h2, by rw [h1, h2], h3, ?_⟩
  intro hinj
  have := (hinj _ _ h3).1
  simp [blockAt] at this

end Aurum
